import Mathlib

/-!
Gap buffer engine of `gapbuf.c`.

A shallow embedding of the gap buffer of `gapbuf.c` (`struct gapbuf` and the
functions `gapbuf_init` .. `gapbuf_write`).

* The heap object behind `b->buf` is a list of cells whose length is the size
  of the allocation.  A cell is `some v` for a byte holding the value `v`, and
  `none` for a byte that was never written (fresh from `malloc`/`realloc`).
* Every function returns `Except Fault _`.  An `ok` result is the value the C
  code computes.  A fault marks the first event after which the C execution is
  no longer tracked: a byte read or written outside the allocation (`oob`), a
  `size_t` subtraction that would wrap below zero (`underflow`), a `size_t`
  addition or multiplication that would exceed `SIZE_MAX` (`overflow`).  The
  fault `fuel` belongs to the bounded form of the `while` loop of
  `gapbuf_inserts` and is never returned (`loop_fuel_suffices`).
* `malloc` and `realloc` are taken to succeed.
-/

namespace GapBuf

/-- Events at which the embedding stops following the C execution. -/
inductive Fault where
  | oob
  | underflow
  | overflow
  | fuel
  deriving DecidableEq

/-- One byte of heap storage: `none` is a byte that was never written. -/
abbrev cell := Option Nat

/-- Largest value of `size_t` (64-bit). -/
def SIZE_MAX : Nat := 2 ^ 64 - 1

/-- Checked `size_t` addition. -/
def size_add (a b : Nat) : Except Fault Nat :=
  if a + b ≤ SIZE_MAX then .ok (a + b) else .error .overflow

/-- Checked `size_t` multiplication. -/
def size_mul (a b : Nat) : Except Fault Nat :=
  if a * b ≤ SIZE_MAX then .ok (a * b) else .error .overflow

/-- Checked `size_t` subtraction. -/
def size_sub (a b : Nat) : Except Fault Nat :=
  if b ≤ a then .ok (a - b) else .error .underflow

/-- Pointer subtraction `p - n` inside an object, as an offset. -/
def ptr_sub (off n : Nat) : Except Fault Nat :=
  if n ≤ off then .ok (off - n) else .error .oob

/-- Conversion of a `ptrdiff_t` expression to `size_t`: reduction modulo `2^64`. -/
def to_size (a : Int) : Nat := (a % 2 ^ 64).toNat

/-- Conversion of an `int` to `char`, as the value of the stored byte. -/
def to_char (c : Int) : Nat := (c % 256).toNat

/-- Read `n` bytes starting at offset `off`; reading no byte accesses nothing. -/
def mem_read (buf : List cell) (off n : Nat) : Except Fault (List cell) :=
  if n = 0 ∨ off + n ≤ buf.length then .ok ((buf.drop off).take n) else .error .oob

/-- Write the bytes `src` starting at offset `off`; writing no byte accesses nothing. -/
def mem_write (buf : List cell) (off : Nat) (src : List cell) : Except Fault (List cell) :=
  if src.length = 0 ∨ off + src.length ≤ buf.length then
    .ok (buf.take off ++ src ++ buf.drop (off + src.length))
  else .error .oob

/-- The call `memmove(buf + dst, buf + src, n)`: the source bytes are read first,
so overlapping ranges are handled. -/
def memmove (buf : List cell) (dst src n : Nat) : Except Fault (List cell) := do
  let tmp ← mem_read buf src n
  mem_write buf dst tmp

/-- The rvalue `buf[i]`. -/
def load (buf : List cell) (i : Nat) : Except Fault cell :=
  match buf.get? i with
  | some v => .ok v
  | none => .error .oob

/-- The assignment `buf[i] = v`. -/
def store (buf : List cell) (i : Nat) (v : cell) : Except Fault (List cell) :=
  mem_write buf i [v]

/-- The call `malloc(n)`: `n` bytes, none of them written. -/
def malloc (n : Nat) : List cell := List.replicate n none

/-- The call `realloc(buf, n)`: the first `min n (old size)` bytes are kept, the
rest of the new object was never written. -/
def realloc (buf : List cell) (n : Nat) : List cell :=
  buf.take n ++ List.replicate (n - buf.length) none

/-- The record `struct gapbuf`; `buf` is the heap object `b->buf` points to. -/
structure gapbuf where
  buf : List cell
  total : Nat
  front : Nat
  gap : Nat
  deriving DecidableEq

/-- Embedding of `gapbuf_init`. -/
def gapbuf_init (init : Nat) : Except Fault gapbuf := do
  let t ← size_add init (if init = 0 then 1 else 0)
  pure { buf := malloc init, total := t, front := 0, gap := t }

/-- Body of the `if (!b->gap)` block of `gapbuf_insert`: the growth step. -/
def gapbuf_insert_grow (b : gapbuf) : Except Fault gapbuf := do
  let back ← size_sub b.total b.front
  let gap := b.total
  let total ← size_mul b.total 2
  let buf := realloc b.buf total
  let buf ← memmove buf (b.front + gap) b.front back
  pure { buf := buf, total := total, front := b.front, gap := gap }

/-- Embedding of `gapbuf_insert`. -/
def gapbuf_insert (b : gapbuf) (c : Int) : Except Fault gapbuf := do
  let b ← (if b.gap = 0 then gapbuf_insert_grow b else pure b)
  let buf ← store b.buf b.front (some (to_char c))
  let front ← size_add b.front 1
  let gap ← size_sub b.gap 1
  pure { b with buf := buf, front := front, gap := gap }

/-- The `while (b->gap < len)` loop of `gapbuf_inserts`.  Each iteration that
does not fault doubles `total`, so the loop cannot run more than `fuel = 64`
times on `size_t` values. -/
def gapbuf_inserts_loop : Nat → gapbuf → Nat → Except Fault gapbuf
  | 0, b, len => if b.gap < len then .error .fuel else .ok b
  | n + 1, b, len =>
    if b.gap < len then do
      let b ← gapbuf_insert { b with gap := 0 } 0
      let front ← size_sub b.front 1
      gapbuf_inserts_loop n { b with front := front } len
    else .ok b

/-- Embedding of `gapbuf_inserts`; `s` is the C string without its terminator. -/
def gapbuf_inserts (b : gapbuf) (s : List Nat) : Except Fault gapbuf := do
  let len := s.length
  let b ← gapbuf_inserts_loop 64 b len
  let buf ← mem_write b.buf b.front (s.map some)
  let front ← size_add b.front len
  let gap ← size_sub b.gap len
  pure { b with buf := buf, front := front, gap := gap }

/-- Embedding of `gapbuf_move`; `amt` is a `ptrdiff_t`.  The conversion `len = -amt` is
taken modulo `2^64`, which is `-amt` itself for every `amt` above `PTRDIFF_MIN` and `2^63`
for `PTRDIFF_MIN`. -/
def gapbuf_move (b : gapbuf) (amt : Int) : Except Fault gapbuf :=
  if amt < 0 then do
    let len := to_size (-amt)
    let len := if len > b.front then b.front else len
    let dst ← ptr_sub (b.front + b.gap) len
    let src ← ptr_sub b.front len
    let front ← size_sub b.front len
    let buf ← memmove b.buf dst src len
    pure { b with buf := buf, front := front }
  else do
    let back ← size_sub b.total b.front
    let back ← size_sub back b.gap
    let len := to_size amt
    let len := if len > back then back else len
    let dst := b.front
    let src := b.front + b.gap
    let front ← size_add b.front len
    let buf ← memmove b.buf dst src len
    pure { b with buf := buf, front := front }

/-- Embedding of `gapbuf_backward`. -/
def gapbuf_backward (b : gapbuf) : Except Fault gapbuf :=
  if b.front > 0 then do
    let i ← size_add b.front b.gap
    let i ← size_sub i 1
    let j ← size_sub b.front 1
    let v ← load b.buf j
    let buf ← store b.buf i v
    let front ← size_sub b.front 1
    pure { b with buf := buf, front := front }
  else pure b

/-- Embedding of `gapbuf_forward`. -/
def gapbuf_forward (b : gapbuf) : Except Fault gapbuf := do
  let back ← size_sub b.total b.front
  let back ← size_sub back b.gap
  if back > 0 then do
    let i ← size_add b.front b.gap
    let v ← load b.buf i
    let buf ← store b.buf b.front v
    let front ← size_add b.front 1
    pure { b with buf := buf, front := front }
  else pure b

/-- Embedding of `gapbuf_delete`. -/
def gapbuf_delete (b : gapbuf) : Except Fault gapbuf := do
  let e ← size_add b.front b.gap
  if b.total > e then do
    let gap ← size_add b.gap 1
    pure { b with gap := gap }
  else pure b

/-- Embedding of `gapbuf_backspace`. -/
def gapbuf_backspace (b : gapbuf) : Except Fault gapbuf :=
  if b.front ≠ 0 then do
    let front ← size_sub b.front 1
    let gap ← size_add b.gap 1
    pure { b with front := front, gap := gap }
  else pure b

/-- Embedding of `gapbuf_write`: the bytes handed to the two `fwrite` calls. -/
def gapbuf_write (b : gapbuf) : Except Fault (List cell) := do
  let fr ← mem_read b.buf 0 b.front
  let back_start := b.front + b.gap
  let back_len ← size_sub b.total b.front
  let back_len ← size_sub back_len b.gap
  let bk ← mem_read b.buf back_start back_len
  pure (fr ++ bk)

/-- The operations a driver can issue on one buffer (the opcodes `C_INSERT`,
`C_QSTRING`, `C_QMOVE`, `C_FORWARD`, `C_BACKWARD`, `C_DELETE`, `C_BACKSPACE` of `animate`,
each applied once). -/
inductive Op where
  | insert_unit (c : Int)
  | insert_run (s : List Nat)
  | move_cursor (amt : Int)
  | step_forward
  | step_backward
  | delete_forward
  | delete_backward
  deriving DecidableEq

/-- One operation applied to a buffer. -/
def step (b : gapbuf) : Op → Except Fault gapbuf
  | .insert_unit c => gapbuf_insert b c
  | .insert_run s => gapbuf_inserts b s
  | .move_cursor amt => gapbuf_move b amt
  | .step_forward => gapbuf_forward b
  | .step_backward => gapbuf_backward b
  | .delete_forward => gapbuf_delete b
  | .delete_backward => gapbuf_backspace b

/-- A finite sequence of operations applied in order. -/
def run (b : gapbuf) : List Op → Except Fault gapbuf
  | [] => .ok b
  | op :: ops => step b op >>= fun b' => run b' ops

/-- Reference model of the specification: the text as a plain list of units and an
explicit cursor index. -/
structure RefModel where
  text : List Nat
  cursor : Nat
  deriving DecidableEq

/-- Reference edit: insert the units `u` at the cursor and move the cursor after them. -/
def ref_insert (r : RefModel) (u : List Nat) : RefModel :=
  { text := r.text.take r.cursor ++ u ++ r.text.drop r.cursor, cursor := r.cursor + u.length }

/-- Reference edit: move the cursor by `delta`, clamped to the text. -/
def ref_move (r : RefModel) (delta : Int) : RefModel :=
  if delta < 0 then { r with cursor := r.cursor - min (-delta).toNat r.cursor }
  else { r with cursor := r.cursor + min delta.toNat (r.text.length - r.cursor) }

/-- Reference edit: delete the unit after the cursor, if any. -/
def ref_delete_forward (r : RefModel) : RefModel :=
  { r with text := r.text.eraseIdx r.cursor }

/-- Reference edit: delete the unit before the cursor, if any. -/
def ref_delete_backward (r : RefModel) : RefModel :=
  if r.cursor = 0 then r
  else { text := r.text.eraseIdx (r.cursor - 1), cursor := r.cursor - 1 }

/-- The logical edit of the reference model for each operation. -/
def ref_step (r : RefModel) : Op → RefModel
  | .insert_unit c => ref_insert r [to_char c]
  | .insert_run s => ref_insert r s
  | .move_cursor amt => ref_move r amt
  | .step_forward => ref_move r 1
  | .step_backward => ref_move r (-1)
  | .delete_forward => ref_delete_forward r
  | .delete_backward => ref_delete_backward r

/-- The reference model after a sequence of operations. -/
def ref_run (r : RefModel) (ops : List Op) : RefModel :=
  ops.foldl ref_step r

/-- The `C_STRING` case of `animate`: one `gapbuf_insert` per unit of `s`, in order. -/
def gapbuf_insert_each (b : gapbuf) : List Nat → Except Fault gapbuf
  | [] => .ok b
  | u :: s => gapbuf_insert b (u : Int) >>= fun b' => gapbuf_insert_each b' s

/-- Counter invariant of the data model: front segment and gap fit into `total`, and
`total` is at least one. -/
def Inv (b : gapbuf) : Prop := b.front + b.gap ≤ b.total ∧ 1 ≤ b.total

/-- The local `back_len` of `gapbuf_write` (`back` in `gapbuf_move` and
`gapbuf_forward`): the number of bytes after the gap. -/
def back_len (b : gapbuf) : Nat := b.total - b.front - b.gap

/-- Well-formed buffer: the heap object has `total` bytes, front segment and gap
fit into it, and `total` is a positive `size_t`. -/
def WF (b : gapbuf) : Prop :=
  b.buf.length = b.total ∧ b.front + b.gap ≤ b.total ∧ 1 ≤ b.total ∧ b.total ≤ SIZE_MAX

instance (b : gapbuf) : Decidable (WF b) := by
  unfold WF; infer_instance

/-- `Rep b F G B`: the storage of `b` is the front segment `F`, the gap `G` and the
back segment `B`, in this order, and the counters agree with the three lengths. -/
def Rep (b : gapbuf) (F G B : List cell) : Prop :=
  b.buf = F ++ G ++ B ∧ b.front = F.length ∧ b.gap = G.length ∧
    b.total = F.length + G.length + B.length

/-! ## Arithmetic and memory primitives -/

theorem SIZE_MAX_eq : SIZE_MAX = 18446744073709551615 := by norm_num [SIZE_MAX]

theorem size_sub_ok {a b : Nat} (h : b ≤ a) : size_sub a b = .ok (a - b) := by
  simp [size_sub, h]

theorem size_add_ok {a b : Nat} (h : a + b ≤ SIZE_MAX) : size_add a b = .ok (a + b) := by
  simp [size_add, h]

theorem size_mul_ok {a b : Nat} (h : a * b ≤ SIZE_MAX) : size_mul a b = .ok (a * b) := by
  simp [size_mul, h]

theorem ptr_sub_ok {a b : Nat} (h : b ≤ a) : ptr_sub a b = .ok (a - b) := by
  simp [ptr_sub, h]

theorem mem_read_eq {buf : List cell} (A X C : List cell) {n m : Nat}
    (hbuf : buf = A ++ X ++ C) (hn : n = A.length) (hm : m = X.length) :
    mem_read buf n m = .ok X := by
  subst hbuf hn hm
  have : A.length + X.length ≤ A.length + (X.length + C.length) := by omega
  simp [mem_read, this]

theorem mem_write_eq {buf : List cell} (A X C : List cell) {n : Nat} (Y : List cell)
    (hbuf : buf = A ++ X ++ C) (hn : n = A.length) (hY : Y.length = X.length) :
    mem_write buf n Y = .ok (A ++ Y ++ C) := by
  subst hbuf hn
  have : A.length + X.length ≤ A.length + (X.length + C.length) := by omega
  simp [mem_write, hY, this]

theorem memmove_eq {buf : List cell} (A X C P Q R : List cell) {dst src n : Nat}
    (hs : buf = A ++ X ++ C) (hsrc : src = A.length) (hn : n = X.length)
    (hd : buf = P ++ Q ++ R) (hdst : dst = P.length) (hq : n = Q.length) :
    memmove buf dst src n = .ok (P ++ X ++ R) := by
  simp only [memmove, mem_read_eq A X C hs hsrc hn, bind, Except.bind]
  exact mem_write_eq P Q R X hd hdst (by omega)

theorem get?_append_length (A C : List cell) (x : cell) :
    (A ++ x :: C).get? A.length = some x := by
  induction A with
  | nil => rfl
  | cons a A ih => simpa using ih

theorem load_eq {buf : List cell} (A C : List cell) (x : cell) {i : Nat}
    (hbuf : buf = A ++ x :: C) (hi : i = A.length) : load buf i = .ok x := by
  subst hbuf hi
  simp only [load, get?_append_length]

theorem store_eq {buf : List cell} (A C : List cell) (x : cell) {i : Nat} (v : cell)
    (hbuf : buf = A ++ x :: C) (hi : i = A.length) : store buf i v = .ok (A ++ v :: C) := by
  have h : mem_write buf i [v] = .ok (A ++ [v] ++ C) :=
    mem_write_eq A [x] C [v] (by simp [hbuf]) hi rfl
  simpa [store] using h

/-! ## The representation `Rep` -/

theorem rep_of_wf {b : gapbuf} (h : WF b) :
    Rep b (b.buf.take b.front) ((b.buf.drop b.front).take b.gap)
      (b.buf.drop (b.front + b.gap)) := by
  obtain ⟨h1, h2, _, _⟩ := h
  refine ⟨?_, ?_, ?_, ?_⟩
  · rw [List.append_assoc, ← List.drop_drop, List.take_append_drop, List.take_append_drop]
  · simp; omega
  · simp; omega
  · simp; omega

theorem rep_length {b : gapbuf} {F G B : List cell} (h : Rep b F G B) :
    b.buf.length = b.total ∧ b.front + b.gap ≤ b.total ∧ back_len b = B.length := by
  obtain ⟨h1, h2, h3, h4⟩ := h
  refine ⟨?_, ?_, ?_⟩
  · rw [h1, h4]; simp; omega
  · omega
  · unfold back_len; omega

theorem write_rep {b : gapbuf} {F G B : List cell} (h : Rep b F G B) :
    gapbuf_write b = .ok (F ++ B) := by
  obtain ⟨h1, h2, h3, h4⟩ := h
  have r1 : mem_read b.buf 0 b.front = .ok F :=
    mem_read_eq [] F (G ++ B) (by simp [h1]) rfl h2
  have r2 : mem_read b.buf (b.front + b.gap) (b.total - b.front - b.gap) = .ok B :=
    mem_read_eq (F ++ G) B [] (by simp [h1]) (by simp [h2, h3]) (by omega)
  simp (disch := omega) only [gapbuf_write, r1, r2, size_sub_ok, bind, Except.bind, pure,
    Except.pure]

theorem insert_grow_rep {b : gapbuf} {F B : List cell} (h : Rep b F [] B)
    (hcap : 2 * b.total ≤ SIZE_MAX) :
    ∃ b', gapbuf_insert_grow b = .ok b' ∧ Rep b' F (B ++ List.replicate F.length none) B ∧
      b'.total = 2 * b.total := by
  obtain ⟨h1, h2, h3, h4⟩ := h
  simp only [List.append_nil, List.length_nil, Nat.add_zero] at h1 h3 h4
  have hlen : b.buf.length = b.total := by rw [h1, h4]; simp
  have hre : realloc b.buf (b.total * 2) = F ++ B ++ List.replicate b.total none := by
    have e1 : b.total * 2 - b.buf.length = b.total := by omega
    have e2 : List.take (b.total * 2) b.buf = b.buf := List.take_of_length_le (by omega)
    rw [realloc, e1, e2, h1]
  have hrep : List.replicate b.total (none : cell) =
      List.replicate F.length none ++ List.replicate B.length none := by
    rw [h4, List.replicate_add]
  have hmv : memmove (F ++ B ++ List.replicate b.total none) (b.front + b.total) b.front
      (b.total - b.front) = .ok (F ++ B ++ List.replicate F.length none ++ B ++ []) :=
    memmove_eq F B (List.replicate b.total none) (F ++ B ++ List.replicate F.length none)
      (List.replicate B.length none) [] rfl h2 (by omega)
      (by rw [hrep]; simp) (by simp; omega) (by simp; omega)
  refine ⟨⟨F ++ B ++ List.replicate F.length none ++ B, b.total * 2, b.front, b.total⟩,
    ?_, ⟨?_, ?_, ?_, ?_⟩, ?_⟩
  · have hm : b.total * 2 ≤ SIZE_MAX := by omega
    simp (disch := omega) only [gapbuf_insert_grow, size_sub_ok, size_mul_ok hm, hre, hmv, bind,
      Except.bind, pure, Except.pure, List.append_nil]
  · simp
  · exact h2
  · simp; omega
  · simp; omega
  · simp; omega

theorem insert_store_rep {b : gapbuf} {F G B : List cell} (g : cell) (c : Int)
    (h : Rep b F (g :: G) B) (hmax : b.total ≤ SIZE_MAX) :
    ∃ b', (do
        let buf ← store b.buf b.front (some (to_char c))
        let front ← size_add b.front 1
        let gap ← size_sub b.gap 1
        pure { b with buf := buf, front := front, gap := gap }) = Except.ok b' ∧
      Rep b' (F ++ [some (to_char c)]) G B ∧ b'.total = b.total := by
  obtain ⟨h1, h2, h3, h4⟩ := h
  simp only [List.length_cons] at h3 h4
  have hst : store b.buf b.front (some (to_char c)) = .ok (F ++ some (to_char c) :: (G ++ B)) :=
    store_eq F (G ++ B) g _ (by simp [h1]) h2
  have hf : b.front + 1 ≤ SIZE_MAX := by omega
  refine ⟨⟨F ++ some (to_char c) :: (G ++ B), b.total, b.front + 1, b.gap - 1⟩, ?_,
    ⟨?_, ?_, ?_, ?_⟩, rfl⟩
  · simp (disch := omega) only [hst, size_add_ok hf, size_sub_ok, bind, Except.bind, pure,
      Except.pure]
  · simp
  · simp; omega
  · simp; omega
  · simp; omega

theorem insert_rep {b : gapbuf} {F G B : List cell} (c : Int) (h : Rep b F G B)
    (h1 : 1 ≤ b.total) (hmax : b.total ≤ SIZE_MAX) (hcap : b.gap = 0 → 2 * b.total ≤ SIZE_MAX) :
    ∃ b' G', gapbuf_insert b c = .ok b' ∧ Rep b' (F ++ [some (to_char c)]) G' B ∧
      b'.total = (if b.gap = 0 then 2 * b.total else b.total) ∧ b'.gap + 1 = 
      (if b.gap = 0 then b.total else b.gap) := by
  by_cases hg : b.gap = 0
  · have hG : G = [] := by
      have := h.2.2.1; rw [hg] at this; exact List.length_eq_zero.mp this.symm
    subst hG
    obtain ⟨b1, e1, r1, t1⟩ := insert_grow_rep h (hcap hg)
    have hc := hcap hg
    have hl : (B ++ List.replicate F.length (none : cell)).length = b.total := by
      have h4 := h.2.2.2
      simp only [List.length_append, List.length_replicate, List.length_nil] at h4 ⊢
      omega
    have hne : B ++ List.replicate F.length (none : cell) ≠ [] := by
      intro hnil
      rw [hnil] at hl
      simp only [List.length_nil] at hl
      omega
    obtain ⟨g, G', hG'⟩ := List.exists_cons_of_ne_nil hne
    rw [hG'] at r1 hl
    obtain ⟨b2, e2, r2, t2⟩ := insert_store_rep g c r1 (by omega)
    refine ⟨b2, G', ?_, r2, ?_, ?_⟩
    · simp only [gapbuf_insert, hg, if_true, e1, bind, Except.bind]
      exact e2
    · simp [hg]; omega
    · have e3 := r2.2.2.1
      simp only [List.length_cons] at hl
      simp only [hg, if_true]
      omega
  · obtain ⟨g, G', hG'⟩ : ∃ g G', G = g :: G' := by
      cases G with
      | nil => exact absurd h.2.2.1 (by simpa using hg)
      | cons g G' => exact ⟨g, G', rfl⟩
    subst hG'
    obtain ⟨b2, e2, r2, t2⟩ := insert_store_rep g c h hmax
    refine ⟨b2, G', ?_, r2, ?_, ?_⟩
    · simp only [gapbuf_insert, hg, if_false, bind, Except.bind, pure, Except.pure]
      exact e2
    · simp [hg]; omega
    · have e3 := r2.2.2.1
      have e4 := h.2.2.1
      simp only [List.length_cons] at e4
      simp only [hg, if_false]
      omega

theorem to_size_of_nonneg {a : Int} (h0 : 0 ≤ a) (h1 : a < 2 ^ 64) : to_size a = a.toNat := by
  unfold to_size
  rw [Int.emod_eq_of_lt h0 h1]

theorem take_drop_app (X C : List cell) (n : Nat) : X.take n ++ (X.drop n ++ C) = X ++ C := by
  rw [← List.append_assoc, List.take_append_drop]

theorem move_left_rep {b : gapbuf} {P Q G B : List cell} (amt : Int) (h : Rep b (P ++ Q) G B)
    (hneg : amt < 0) (hlen : min (to_size (-amt)) b.front = Q.length) :
    ∃ b', gapbuf_move b amt = .ok b' ∧
      Rep b' P ((Q ++ G).take G.length) (Q ++ B) ∧ b'.total = b.total := by
  obtain ⟨h1, h2, h3, h4⟩ := h
  simp only [List.length_append] at h2 h4
  have hl : (if to_size (-amt) > b.front then b.front else to_size (-amt)) = Q.length := by
    rw [← hlen]; split <;> omega
  have hsplit : Q ++ G = (Q ++ G).take G.length ++ (Q ++ G).drop G.length :=
    (List.take_append_drop _ _).symm
  have hdl : ((Q ++ G).drop G.length).length = Q.length := by simp
  have htl : ((Q ++ G).take G.length).length = G.length := by simp
  have hmv : memmove b.buf (b.front + b.gap - Q.length) (b.front - Q.length) Q.length =
      .ok (P ++ (Q ++ G).take G.length ++ Q ++ B) :=
    memmove_eq P Q (G ++ B) (P ++ (Q ++ G).take G.length) ((Q ++ G).drop G.length) B
      (by simp [h1]) (by omega) rfl
      (by rw [h1]; simp only [List.append_assoc, take_drop_app])
      (by simp; omega) (by simp)
  refine ⟨⟨P ++ (Q ++ G).take G.length ++ Q ++ B, b.total, b.front - Q.length, b.gap⟩, ?_,
    ⟨?_, ?_, ?_, ?_⟩, rfl⟩
  · simp (disch := omega) only [gapbuf_move, hneg, if_true, hl, ptr_sub_ok, size_sub_ok, hmv, bind,
      Except.bind, pure, Except.pure]
  · simp
  · simp; omega
  · simp; omega
  · simp; omega

theorem move_right_rep {b : gapbuf} {F G P Q : List cell} (amt : Int) (h : Rep b F G (P ++ Q))
    (hpos : 0 ≤ amt) (hmax : b.total ≤ SIZE_MAX)
    (hlen : min (to_size amt) (back_len b) = P.length) :
    ∃ b', gapbuf_move b amt = .ok b' ∧
      Rep b' (F ++ P) ((G ++ P).drop P.length) Q ∧ b'.total = b.total := by
  obtain ⟨h1, h2, h3, h4⟩ := h
  simp only [List.length_append] at h4
  unfold back_len at hlen
  have hl : (if to_size amt > b.total - b.front - b.gap then b.total - b.front - b.gap
      else to_size amt) = P.length := by
    rw [← hlen]; split <;> omega
  have hsplit : G ++ P = (G ++ P).take P.length ++ (G ++ P).drop P.length :=
    (List.take_append_drop _ _).symm
  have htl : ((G ++ P).take P.length).length = P.length := by simp
  have hmv : memmove b.buf b.front (b.front + b.gap) P.length =
      .ok (F ++ P ++ ((G ++ P).drop P.length ++ Q)) :=
    memmove_eq (F ++ G) P Q F ((G ++ P).take P.length) ((G ++ P).drop P.length ++ Q)
      (by simp [h1]) (by simp; omega) rfl
      (by rw [h1]; simp only [List.append_assoc, take_drop_app])
      h2 (by simp)
  have hna : ¬ amt < 0 := by omega
  have hf : b.front + P.length ≤ SIZE_MAX := by omega
  refine ⟨⟨F ++ P ++ ((G ++ P).drop P.length ++ Q), b.total, b.front + P.length, b.gap⟩, ?_,
    ⟨?_, ?_, ?_, ?_⟩, rfl⟩
  · simp (disch := omega) only [gapbuf_move, hna, if_false, hl, size_add_ok hf, size_sub_ok, hmv,
      bind, Except.bind, pure, Except.pure]
  · simp
  · simp; omega
  · simp; omega
  · simp; omega

theorem to_char_of_lt {v : Nat} (h : v < 256) : to_char (v : Int) = v := by
  unfold to_char
  omega

theorem exists_rep {b : gapbuf} (h : WF b) : ∃ F G B, Rep b F G B :=
  ⟨_, _, _, rep_of_wf h⟩

theorem wf_of_rep {b : gapbuf} {F G B : List cell} (h : Rep b F G B) (h1 : 1 ≤ b.total)
    (hmax : b.total ≤ SIZE_MAX) : WF b :=
  ⟨(rep_length h).1, (rep_length h).2.1, h1, hmax⟩

theorem move_spec (b : gapbuf) (amt : Int) (hwf : WF b)
    (hlo : -(2 ^ 63) ≤ amt) (hhi : amt < 2 ^ 63) :
    ∃ b', gapbuf_move b amt = .ok b' ∧ WF b' ∧ gapbuf_write b' = gapbuf_write b ∧
      b'.gap = b.gap ∧ b'.total = b.total ∧
      b'.front = (if amt < 0 then b.front - min (-amt).toNat b.front
        else b.front + min amt.toNat (back_len b)) := by
  obtain ⟨F, G, B, hrep⟩ := exists_rep hwf
  obtain ⟨_, _, h1, hmax⟩ := hwf
  by_cases hneg : amt < 0
  · have hsz : to_size (-amt) = (-amt).toNat := to_size_of_nonneg (by omega) (by omega)
    have hF : F = F.take (b.front - min (-amt).toNat b.front) ++
        F.drop (b.front - min (-amt).toNat b.front) := (List.take_append_drop _ _).symm
    have hrep2 := hrep
    rw [hF] at hrep2
    have hfl := hrep.2.1
    obtain ⟨b', e, r, t⟩ := move_left_rep amt hrep2 hneg (by
      rw [hsz, List.length_drop, ← hfl]; omega)
    refine ⟨b', e, wf_of_rep r (by omega) (by omega), ?_, ?_, t, ?_⟩
    · rw [write_rep r, write_rep hrep, ← List.append_assoc, ← hF]
    · rw [r.2.2.1, hrep.2.2.1]; simp
    · rw [if_pos hneg, r.2.1, List.length_take, ← hfl]; omega
  · have hsz : to_size amt = amt.toNat := to_size_of_nonneg (by omega) (by omega)
    have hB : B = B.take (min amt.toNat (back_len b)) ++ B.drop (min amt.toNat (back_len b)) :=
      (List.take_append_drop _ _).symm
    have hrep2 := hrep
    rw [hB] at hrep2
    have hbl := (rep_length hrep).2.2
    obtain ⟨b', e, r, t⟩ := move_right_rep amt hrep2 (by omega) hmax (by
      rw [hsz, List.length_take, ← hbl]; omega)
    refine ⟨b', e, wf_of_rep r (by omega) (by omega), ?_, ?_, t, ?_⟩
    · rw [write_rep r, write_rep hrep, List.append_assoc, ← hB]
    · rw [r.2.2.1, hrep.2.2.1]; simp
    · rw [if_neg hneg, r.2.1, List.length_append, List.length_take, ← hbl, ← hrep.2.1]; omega

theorem memmove_one (buf : List cell) (d s : Nat) :
    memmove buf d s 1 = (load buf s >>= fun v => store buf d v) := by
  unfold memmove mem_read load store
  by_cases h : s < buf.length
  · have h1 : (1 = 0 ∨ s + 1 ≤ buf.length) := Or.inr h
    have h2 : buf.get? s = some buf[s] := by simp [List.getElem?_eq_getElem h]
    have h3 : (buf.drop s).take 1 = [buf[s]] := List.take_one_drop_eq_of_lt_length h
    simp only [h1, if_true, h2, h3, bind, Except.bind]
  · have h1 : ¬ (1 = 0 ∨ s + 1 ≤ buf.length) := by omega
    have h2 : buf.get? s = none := by simp; omega
    simp only [h1, if_false, h2, bind, Except.bind]

theorem memmove_zero (buf : List cell) (d s : Nat) : memmove buf d s 0 = .ok buf := by
  simp [memmove, mem_read, mem_write, bind, Except.bind]

theorem to_size_one : to_size 1 = 1 := by decide

theorem to_size_neg_neg_one : to_size (-(-1)) = 1 := by decide

theorem backward_eq_move (b : gapbuf) (hwf : WF b) : gapbuf_backward b = gapbuf_move b (-1) := by
  obtain ⟨hl, hfg, h1, hmax⟩ := hwf
  have hneg : (-1 : Int) < 0 := by decide
  by_cases hf : b.front > 0
  · have hlen : ¬ (1 > b.front) := by omega
    have hfg' : b.front + b.gap ≤ SIZE_MAX := by omega
    simp (disch := omega) only [gapbuf_backward, gapbuf_move, hf, hneg, if_true, hlen, if_false,
      to_size_neg_neg_one, size_add_ok hfg', size_sub_ok, ptr_sub_ok, memmove_one, bind,
      Except.bind, pure, Except.pure]
    cases load b.buf (b.front - 1) with
    | error e => rfl
    | ok v => rfl
  · have hf0 : b.front = 0 := by omega
    have hlen : 1 > b.front := by omega
    have hz : memmove b.buf (b.front + b.gap - b.front) (b.front - b.front) b.front = .ok b.buf := by
      rw [hf0]; exact memmove_zero _ _ _
    simp (disch := omega) only [gapbuf_backward, gapbuf_move, hf, hneg, if_true, hlen, if_false,
      to_size_neg_neg_one, size_sub_ok, ptr_sub_ok, hz, bind, Except.bind, pure, Except.pure]
    obtain ⟨buf, total, front, gap⟩ := b
    simp only at hf0
    subst hf0
    rfl

theorem forward_eq_move (b : gapbuf) (hwf : WF b) : gapbuf_forward b = gapbuf_move b 1 := by
  obtain ⟨hl, hfg, h1, hmax⟩ := hwf
  have hneg : ¬ ((1 : Int) < 0) := by decide
  by_cases hb : b.total - b.front - b.gap > 0
  · have hlen : ¬ (1 > b.total - b.front - b.gap) := by omega
    have hfg' : b.front + b.gap ≤ SIZE_MAX := by omega
    have hf1 : b.front + 1 ≤ SIZE_MAX := by omega
    simp (disch := omega) only [gapbuf_forward, gapbuf_move, hb, hneg, if_true, hlen, if_false,
      to_size_one, size_add_ok hfg', size_add_ok hf1, size_sub_ok, memmove_one, bind,
      Except.bind, pure, Except.pure]
    cases load b.buf (b.front + b.gap) with
    | error e => rfl
    | ok v => rfl
  · have hb0 : b.total - b.front - b.gap = 0 := by omega
    have hlen : 1 > b.total - b.front - b.gap := by omega
    have hf0 : b.front + (b.total - b.front - b.gap) ≤ SIZE_MAX := by omega
    have hz : memmove b.buf b.front (b.front + b.gap) (b.total - b.front - b.gap) = .ok b.buf := by
      rw [hb0]; exact memmove_zero _ _ _
    simp (disch := omega) only [gapbuf_forward, gapbuf_move, hb, hneg, if_true, hlen, if_false,
      to_size_one, size_add_ok hf0, size_sub_ok, hz, bind, Except.bind, pure, Except.pure]
    simp only [hb0, Nat.add_zero]

theorem eraseIdx_append_cons (A C : List cell) (x : cell) :
    (A ++ x :: C).eraseIdx A.length = A ++ C := by
  induction A with
  | nil => rfl
  | cons a A ih => simp [ih]

/-! ## Single-unit insertion -/

/-- C5: on a well-formed buffer, whether the gap is empty or not, `gapbuf_insert` with a
unit value `v` succeeds (the doubled capacity being a `size_t` when it has to grow); the
materialized content becomes the old content before the cursor, then `v`, then the old
content after the cursor; `front` grows by one and so does the logical length
`front + back_len`. -/
theorem insert_unit_content (b : gapbuf) (v : Nat) (hwf : WF b) (hv : v < 256)
    (hcap : b.gap = 0 → 2 * b.total ≤ SIZE_MAX) :
    ∃ l b', gapbuf_write b = .ok l ∧ gapbuf_insert b v = .ok b' ∧
      gapbuf_write b' = .ok (l.take b.front ++ [some v] ++ l.drop b.front) ∧
      b'.front = b.front + 1 ∧
      b'.front + back_len b' = b.front + back_len b + 1 ∧ WF b' := by
  obtain ⟨F, G, B, hrep⟩ := exists_rep hwf
  obtain ⟨_, _, h1, hmax⟩ := hwf
  obtain ⟨b', G', e, r, t, _⟩ := insert_rep (v : Int) hrep h1 hmax hcap
  rw [to_char_of_lt hv] at r
  have hfl : b.front = F.length := hrep.2.1
  have ht : 1 ≤ b'.total ∧ b'.total ≤ SIZE_MAX := by
    by_cases hg : b.gap = 0
    · have := hcap hg
      rw [if_pos hg] at t; omega
    · rw [if_neg hg] at t; omega
  refine ⟨F ++ B, b', write_rep hrep, e, ?_, ?_, ?_, wf_of_rep r ht.1 ht.2⟩
  · rw [write_rep r, hfl, List.take_left, List.drop_left]
  · rw [r.2.1, hfl]; simp
  · rw [(rep_length r).2.2, (rep_length hrep).2.2, r.2.1, hfl]
    simp only [List.length_append, List.length_singleton]
    omega

theorem insert_unit_content_witness :
    ∃ l b', gapbuf_write ⟨[some 104, some 105], 2, 1, 0⟩ = .ok l ∧
      gapbuf_insert ⟨[some 104, some 105], 2, 1, 0⟩ ((33 : Nat) : Int) = .ok b' ∧
      gapbuf_write b' = .ok (l.take 1 ++ [some 33] ++ l.drop 1) ∧
      b'.front = 1 + 1 ∧
      b'.front + back_len b' = 1 + back_len ⟨[some 104, some 105], 2, 1, 0⟩ + 1 ∧ WF b' :=
  insert_unit_content ⟨[some 104, some 105], 2, 1, 0⟩ 33 (by decide) (by decide) (by decide)

/-! ## Cursor movement -/

/-- C6: on a well-formed buffer and for every `ptrdiff_t` value `amt`, `gapbuf_move`
succeeds, leaves the materialized content, `gap` and `total` unchanged, and sets `front`
to `front - min (-amt) front` when `amt < 0` and to `front + min amt back_len` when
`amt ≥ 0`, with `back_len` taken before the move. -/
theorem move_cursor_clamped (b : gapbuf) (amt : Int) (hwf : WF b)
    (hlo : -(2 ^ 63) ≤ amt) (hhi : amt < 2 ^ 63) :
    ∃ l b', gapbuf_write b = .ok l ∧ gapbuf_move b amt = .ok b' ∧
      gapbuf_write b' = .ok l ∧ b'.gap = b.gap ∧ b'.total = b.total ∧
      (amt < 0 → b'.front = b.front - min (-amt).toNat b.front) ∧
      (0 ≤ amt → b'.front = b.front + min amt.toNat (back_len b)) := by
  obtain ⟨F, G, B, hrep⟩ := exists_rep hwf
  obtain ⟨b', e, _, w, g, t, f⟩ := move_spec b amt hwf hlo hhi
  refine ⟨F ++ B, b', write_rep hrep, e, ?_, g, t, ?_, ?_⟩
  · rw [w, write_rep hrep]
  · intro hneg; rw [f, if_pos hneg]
  · intro hpos; rw [f, if_neg (by omega)]

theorem move_cursor_clamped_witness :
    ∃ l b', gapbuf_write ⟨[some 1, some 2, none, some 3], 4, 2, 1⟩ = .ok l ∧
      gapbuf_move ⟨[some 1, some 2, none, some 3], 4, 2, 1⟩ (-5) = .ok b' ∧
      gapbuf_write b' = .ok l ∧ b'.gap = 1 ∧ b'.total = 4 ∧
      ((-5 : Int) < 0 → b'.front = 2 - min (-(-5 : Int)).toNat 2) ∧
      (0 ≤ (-5 : Int) → b'.front =
        2 + min (-5 : Int).toNat (back_len ⟨[some 1, some 2, none, some 3], 4, 2, 1⟩)) :=
  move_cursor_clamped ⟨[some 1, some 2, none, some 3], 4, 2, 1⟩ (-5) (by decide) (by decide)
    (by decide)

/-- C7: on a well-formed buffer, if `gapbuf_move` by `amt` is not clamped (`-amt ≤ front`
when `amt < 0`, `amt ≤ back_len` when `amt ≥ 0`), then moving by `amt` and then by `-amt`
restores `front` and leaves the materialized content unchanged. -/
theorem move_cursor_inverse (b : gapbuf) (amt : Int) (hwf : WF b)
    (hlo : -(2 ^ 63) < amt) (hhi : amt < 2 ^ 63)
    (hleft : amt < 0 → (-amt).toNat ≤ b.front)
    (hright : 0 ≤ amt → amt.toNat ≤ back_len b) :
    ∃ l b1 b2, gapbuf_write b = .ok l ∧ gapbuf_move b amt = .ok b1 ∧
      gapbuf_move b1 (-amt) = .ok b2 ∧ b2.front = b.front ∧ gapbuf_write b2 = .ok l := by
  obtain ⟨F, G, B, hrep⟩ := exists_rep hwf
  obtain ⟨b1, e1, wf1, w1, g1, t1, f1⟩ := move_spec b amt hwf (by omega) hhi
  obtain ⟨b2, e2, _, w2, _, _, f2⟩ := move_spec b1 (-amt) wf1 (by omega) (by omega)
  have hfg := hwf.2.1
  refine ⟨F ++ B, b1, b2, write_rep hrep, e1, e2, ?_, ?_⟩
  · unfold back_len at f1 f2 hright
    by_cases hneg : amt < 0
    · have h := hleft hneg
      rw [if_pos hneg] at f1
      rw [if_neg (by omega)] at f2
      rw [f2, f1, g1, t1]
      omega
    · have h := hright (by omega)
      rw [if_neg hneg] at f1
      by_cases h0 : amt = 0
      · subst h0
        simp only [neg_zero, lt_self_iff_false, if_false, Int.toNat_zero] at f1 f2
        rw [f2, f1]
        omega
      · rw [if_pos (by omega)] at f2
        rw [f2, f1, neg_neg]
        omega
  · rw [w2, w1, write_rep hrep]

theorem move_cursor_inverse_witness :
    ∃ l b1 b2, gapbuf_write ⟨[some 1, some 2, none, some 3], 4, 2, 1⟩ = .ok l ∧
      gapbuf_move ⟨[some 1, some 2, none, some 3], 4, 2, 1⟩ (-2) = .ok b1 ∧
      gapbuf_move b1 (-(-2)) = .ok b2 ∧ b2.front = 2 ∧ gapbuf_write b2 = .ok l :=
  move_cursor_inverse ⟨[some 1, some 2, none, some 3], 4, 2, 1⟩ (-2) (by decide) (by decide)
    (by decide) (by decide) (by decide)

/-- C8: on a well-formed buffer, `gapbuf_backward` returns exactly the state (storage,
`total`, `front`, `gap`) that `gapbuf_move` by `-1` returns, and `gapbuf_forward` exactly
the state that `gapbuf_move` by `1` returns; at `front = 0`, respectively `back_len = 0`,
that state is the unchanged buffer. -/
theorem step_eq_move_one (b : gapbuf) (hwf : WF b) :
    (∃ b1, gapbuf_backward b = .ok b1 ∧ gapbuf_move b (-1) = .ok b1 ∧
      (b.front = 0 → b1 = b)) ∧
    (∃ b2, gapbuf_forward b = .ok b2 ∧ gapbuf_move b 1 = .ok b2 ∧
      (back_len b = 0 → b2 = b)) := by
  obtain ⟨b1, e1, _⟩ := move_spec b (-1) hwf (by decide) (by decide)
  obtain ⟨b2, e2, _⟩ := move_spec b 1 hwf (by decide) (by decide)
  refine ⟨⟨b1, ?_, e1, ?_⟩, ⟨b2, ?_, e2, ?_⟩⟩
  · rw [backward_eq_move b hwf, e1]
  · intro h0
    have hb : gapbuf_backward b = .ok b := by
      simp only [gapbuf_backward, h0, gt_iff_lt, lt_self_iff_false, if_false, pure, Except.pure]
    rw [backward_eq_move b hwf, e1] at hb
    exact Except.ok.inj hb
  · rw [forward_eq_move b hwf, e2]
  · intro h0
    unfold back_len at h0
    have hfg := hwf.2.1
    have hb : gapbuf_forward b = .ok b := by
      simp (disch := omega) only [gapbuf_forward, size_sub_ok, h0, gt_iff_lt,
        lt_self_iff_false, if_false, bind, Except.bind, pure, Except.pure]
    rw [forward_eq_move b hwf, e2] at hb
    exact Except.ok.inj hb

theorem step_eq_move_one_witness :
    (∃ b1, gapbuf_backward ⟨[some 1, some 2, none, some 3], 4, 2, 1⟩ = .ok b1 ∧
      gapbuf_move ⟨[some 1, some 2, none, some 3], 4, 2, 1⟩ (-1) = .ok b1 ∧
      ((2 : Nat) = 0 → b1 = ⟨[some 1, some 2, none, some 3], 4, 2, 1⟩)) ∧
    (∃ b2, gapbuf_forward ⟨[some 1, some 2, none, some 3], 4, 2, 1⟩ = .ok b2 ∧
      gapbuf_move ⟨[some 1, some 2, none, some 3], 4, 2, 1⟩ 1 = .ok b2 ∧
      (back_len ⟨[some 1, some 2, none, some 3], 4, 2, 1⟩ = 0 →
        b2 = ⟨[some 1, some 2, none, some 3], 4, 2, 1⟩)) :=
  step_eq_move_one ⟨[some 1, some 2, none, some 3], 4, 2, 1⟩ (by decide)

/-! ## Deletion -/

/-- C9: on a well-formed buffer with `back_len > 0`, `gapbuf_delete` returns the same
record with `gap` increased by one (storage, `total` and `front` as they were), and the
materialized content is the old one with the unit at logical index `front` removed. -/
theorem delete_forward_content (b : gapbuf) (hwf : WF b) (hback : 0 < back_len b) :
    ∃ l, gapbuf_delete b = .ok { b with gap := b.gap + 1 } ∧ gapbuf_write b = .ok l ∧
      gapbuf_write { b with gap := b.gap + 1 } = .ok (l.eraseIdx b.front) := by
  obtain ⟨F, G, B, hrep⟩ := exists_rep hwf
  obtain ⟨_, hfg, _, hmax⟩ := hwf
  have hbl := (rep_length hrep).2.2
  unfold back_len at hback hbl
  obtain ⟨x, B', hB⟩ : ∃ x B', B = x :: B' := by
    cases B with
    | nil => simp only [List.length_nil] at hbl; omega
    | cons x B' => exact ⟨x, B', rfl⟩
  subst hB
  obtain ⟨h1, h2, h3, h4⟩ := hrep
  have hr : Rep { b with gap := b.gap + 1 } F (G ++ [x]) B' := by
    refine ⟨?_, h2, ?_, ?_⟩
    · simp [h1]
    · simp [h3]
    · simp only [List.length_append, List.length_cons, List.length_nil] at h4 ⊢; omega
  have ha : b.front + b.gap ≤ SIZE_MAX := by omega
  have hg : b.gap + 1 ≤ SIZE_MAX := by omega
  have hlt : b.total > b.front + b.gap := by omega
  refine ⟨F ++ x :: B', ?_, write_rep ⟨h1, h2, h3, h4⟩, ?_⟩
  · simp only [gapbuf_delete, size_add_ok ha, size_add_ok hg, hlt, if_true, bind, Except.bind,
      pure, Except.pure]
  · rw [write_rep hr, h2, eraseIdx_append_cons]

theorem delete_forward_content_witness :
    ∃ l, gapbuf_delete ⟨[some 1, some 2, none, some 3], 4, 2, 1⟩ =
        .ok { (⟨[some 1, some 2, none, some 3], 4, 2, 1⟩ : gapbuf) with gap := 1 + 1 } ∧
      gapbuf_write ⟨[some 1, some 2, none, some 3], 4, 2, 1⟩ = .ok l ∧
      gapbuf_write { (⟨[some 1, some 2, none, some 3], 4, 2, 1⟩ : gapbuf) with gap := 1 + 1 } =
        .ok (l.eraseIdx 2) :=
  delete_forward_content ⟨[some 1, some 2, none, some 3], 4, 2, 1⟩ (by decide) (by decide)

/-- C10: on a well-formed buffer with `front > 0`, `gapbuf_backspace` returns the same
record with `front` decreased by one and `gap` increased by one (storage and `total` as
they were), and the materialized content is the old one with the unit at logical index
`front - 1` removed. -/
theorem delete_backward_content (b : gapbuf) (hwf : WF b) (hfront : 0 < b.front) :
    ∃ l, gapbuf_backspace b = .ok { b with front := b.front - 1, gap := b.gap + 1 } ∧
      gapbuf_write b = .ok l ∧
      gapbuf_write { b with front := b.front - 1, gap := b.gap + 1 } =
        .ok (l.eraseIdx (b.front - 1)) := by
  obtain ⟨F, G, B, hrep⟩ := exists_rep hwf
  obtain ⟨_, hfg, _, hmax⟩ := hwf
  obtain ⟨h1, h2, h3, h4⟩ := hrep
  obtain ⟨P, x, hF⟩ : ∃ P x, F = P ++ [x] := by
    rcases List.eq_nil_or_concat F with hnil | hc
    · rw [hnil] at h2; simp only [List.length_nil] at h2; omega
    · obtain ⟨L, c, hL⟩ := hc
      exact ⟨L, c, by rw [hL, List.concat_eq_append]⟩
  subst hF
  simp only [List.length_append, List.length_cons, List.length_nil] at h2 h4
  have hr : Rep { b with front := b.front - 1, gap := b.gap + 1 } P (x :: G) B := by
    refine ⟨?_, ?_, ?_, ?_⟩
    · simp [h1]
    · simp only; omega
    · simp [h3]
    · simp only [List.length_cons]; omega
  have hg : b.gap + 1 ≤ SIZE_MAX := by omega
  have hne : b.front ≠ 0 := by omega
  refine ⟨P ++ x :: B, ?_, ?_, ?_⟩
  · simp (disch := omega) only [gapbuf_backspace, hne, ne_eq, not_false_eq_true, if_true,
      size_sub_ok, size_add_ok hg, bind, Except.bind, pure, Except.pure]
  · have hw : Rep b (P ++ [x]) G B :=
      ⟨h1, by simp only [List.length_append, List.length_cons, List.length_nil]; omega, h3,
        by simp only [List.length_append, List.length_cons, List.length_nil]; omega⟩
    rw [write_rep hw, List.append_assoc]
    rfl
  · have e : b.front - 1 = P.length := by omega
    rw [write_rep hr, e, eraseIdx_append_cons]

theorem delete_backward_content_witness :
    ∃ l, gapbuf_backspace ⟨[some 1, some 2, none, some 3], 4, 2, 1⟩ =
        .ok { (⟨[some 1, some 2, none, some 3], 4, 2, 1⟩ : gapbuf) with
          front := 2 - 1, gap := 1 + 1 } ∧
      gapbuf_write ⟨[some 1, some 2, none, some 3], 4, 2, 1⟩ = .ok l ∧
      gapbuf_write { (⟨[some 1, some 2, none, some 3], 4, 2, 1⟩ : gapbuf) with
          front := 2 - 1, gap := 1 + 1 } = .ok (l.eraseIdx (2 - 1)) :=
  delete_backward_content ⟨[some 1, some 2, none, some 3], 4, 2, 1⟩ (by decide) (by decide)

/-! ## Inversion of the primitives -/

theorem bind_ok_iff {α β : Type} (x : Except Fault α) (f : α → Except Fault β) (y : β) :
    (x >>= f) = .ok y ↔ ∃ a, x = .ok a ∧ f a = .ok y := by
  cases x with
  | error e => simp [bind, Except.bind]
  | ok a => simp [bind, Except.bind]

theorem bind_error_iff {α β : Type} (x : Except Fault α) (f : α → Except Fault β) (e : Fault) :
    (x >>= f) = .error e ↔ x = .error e ∨ ∃ a, x = .ok a ∧ f a = .error e := by
  cases x with
  | error e' => simp [bind, Except.bind]
  | ok a => simp [bind, Except.bind]

theorem size_sub_ok_iff (a b x : Nat) : size_sub a b = .ok x ↔ b ≤ a ∧ x = a - b := by
  unfold size_sub; split <;> simp_all [eq_comm]

theorem size_add_ok_iff (a b x : Nat) :
    size_add a b = .ok x ↔ a + b ≤ SIZE_MAX ∧ x = a + b := by
  unfold size_add; split <;> simp_all [eq_comm]

theorem size_mul_ok_iff (a b x : Nat) :
    size_mul a b = .ok x ↔ a * b ≤ SIZE_MAX ∧ x = a * b := by
  unfold size_mul; split <;> simp_all [eq_comm]

theorem ptr_sub_ok_iff (a b x : Nat) : ptr_sub a b = .ok x ↔ b ≤ a ∧ x = a - b := by
  unfold ptr_sub; split <;> simp_all [eq_comm]

theorem size_sub_underflow_iff (a b : Nat) : size_sub a b = .error .underflow ↔ a < b := by
  unfold size_sub; split <;> simp_all

theorem size_add_not_underflow (a b : Nat) : size_add a b ≠ .error .underflow := by
  unfold size_add; split <;> simp

theorem size_mul_not_underflow (a b : Nat) : size_mul a b ≠ .error .underflow := by
  unfold size_mul; split <;> simp

theorem ptr_sub_not_underflow (a b : Nat) : ptr_sub a b ≠ .error .underflow := by
  unfold ptr_sub; split <;> simp

theorem mem_read_not_underflow (buf : List cell) (off n : Nat) :
    mem_read buf off n ≠ .error .underflow := by
  unfold mem_read; split <;> simp

theorem mem_write_not_underflow (buf : List cell) (off : Nat) (src : List cell) :
    mem_write buf off src ≠ .error .underflow := by
  unfold mem_write; split <;> simp

theorem memmove_not_underflow (buf : List cell) (d s n : Nat) :
    memmove buf d s n ≠ .error .underflow := by
  unfold memmove
  intro h
  rcases (bind_error_iff _ _ _).mp h with h | ⟨a, _, h⟩
  · exact mem_read_not_underflow _ _ _ h
  · exact mem_write_not_underflow _ _ _ h

theorem load_not_underflow (buf : List cell) (i : Nat) : load buf i ≠ .error .underflow := by
  unfold load; split <;> simp

theorem store_not_underflow (buf : List cell) (i : Nat) (v : cell) :
    store buf i v ≠ .error .underflow :=
  mem_write_not_underflow _ _ _

/-- Effect of a successful `gapbuf_insert` on the counters. -/
theorem insert_fields {b b' : gapbuf} {c : Int} (h : gapbuf_insert b c = .ok b') :
    b'.front = b.front + 1 ∧
      ((b.gap ≠ 0 ∧ b'.total = b.total ∧ b'.gap + 1 = b.gap) ∨
       (b.gap = 0 ∧ b.front ≤ b.total ∧ b'.total = b.total * 2 ∧ b'.gap + 1 = b.total)) := by
  unfold gapbuf_insert at h
  by_cases hg : b.gap = 0
  · simp only [hg, if_true, gapbuf_insert_grow, bind_ok_iff, size_sub_ok_iff, size_mul_ok_iff,
      size_add_ok_iff, pure, Except.pure, Except.ok.injEq] at h
    obtain ⟨b1, ⟨back, ⟨hb, rfl⟩, total, ⟨ht, rfl⟩, buf, hm, rfl⟩, buf2, hs, fr, ⟨hf, rfl⟩, g, ⟨hg1, rfl⟩, rfl⟩ := h
    dsimp only at hf hg1 ⊢
    exact ⟨rfl, Or.inr ⟨hg, hb, rfl, by omega⟩⟩
  · simp only [hg, if_false, bind_ok_iff, size_sub_ok_iff, size_mul_ok_iff,
      size_add_ok_iff, pure, Except.pure, Except.ok.injEq] at h
    obtain ⟨b1, rfl, buf2, hs, fr, ⟨hf, rfl⟩, g, ⟨hg1, rfl⟩, rfl⟩ := h
    dsimp only at hf hg1 ⊢
    exact ⟨rfl, Or.inl ⟨hg, rfl, by omega⟩⟩

/-! ## The counter invariant along every operation -/

theorem init_inv {init : Nat} {b : gapbuf} (h : gapbuf_init init = .ok b) : Inv b := by
  simp only [gapbuf_init, bind_ok_iff, size_add_ok_iff, pure, Except.pure,
    Except.ok.injEq] at h
  obtain ⟨t, ⟨_, rfl⟩, rfl⟩ := h
  unfold Inv
  dsimp only
  split <;> omega

theorem insert_inv {b b' : gapbuf} {c : Int} (hi : Inv b) (h : gapbuf_insert b c = .ok b') :
    Inv b' := by
  obtain ⟨hf, hcase⟩ := insert_fields h
  unfold Inv at hi ⊢
  omega

theorem bind_no_underflow {α β : Type} {x : Except Fault α} {f : α → Except Fault β}
    (hx : x ≠ .error .underflow) (hf : ∀ a, x = .ok a → f a ≠ .error .underflow) :
    (x >>= f) ≠ .error .underflow := by
  intro h
  rcases (bind_error_iff _ _ _).mp h with h | ⟨a, ha, h⟩
  · exact hx h
  · exact hf a ha h

theorem pure_no_underflow {α : Type} (a : α) :
    (pure a : Except Fault α) ≠ .error .underflow := by
  simp [pure, Except.pure]

theorem size_sub_no_underflow {a b : Nat} (h : b ≤ a) : size_sub a b ≠ .error .underflow := by
  rw [size_sub_ok h]; simp

theorem grow_no_underflow {b : gapbuf} (hi : b.front ≤ b.total) :
    gapbuf_insert_grow b ≠ .error .underflow := by
  unfold gapbuf_insert_grow
  refine bind_no_underflow (size_sub_no_underflow hi) (fun back _ => ?_)
  refine bind_no_underflow (size_mul_not_underflow _ _) (fun t _ => ?_)
  exact bind_no_underflow (memmove_not_underflow _ _ _ _) (fun m _ => pure_no_underflow _)

theorem grow_fields {b b' : gapbuf} (h : gapbuf_insert_grow b = .ok b') :
    b.front ≤ b.total ∧ b'.front = b.front ∧ b'.total = b.total * 2 ∧ b'.gap = b.total := by
  simp only [gapbuf_insert_grow, bind_ok_iff, size_sub_ok_iff, size_mul_ok_iff, pure,
    Except.pure, Except.ok.injEq] at h
  obtain ⟨back, ⟨hb, rfl⟩, total, ⟨ht, rfl⟩, buf, hm, rfl⟩ := h
  exact ⟨hb, rfl, rfl, rfl⟩

theorem insert_no_underflow {b : gapbuf} {c : Int} (hi : Inv b) :
    gapbuf_insert b c ≠ .error .underflow := by
  unfold Inv at hi
  unfold gapbuf_insert
  have h1 : (if b.gap = 0 then gapbuf_insert_grow b else pure b) ≠ .error .underflow := by
    split
    · exact grow_no_underflow (by omega)
    · exact pure_no_underflow _
  refine bind_no_underflow h1 (fun b1 hb1 => ?_)
  refine bind_no_underflow (store_not_underflow _ _ _) (fun buf _ => ?_)
  refine bind_no_underflow (size_add_not_underflow _ _) (fun fr _ => ?_)
  refine bind_no_underflow (size_sub_no_underflow ?_) (fun g _ => pure_no_underflow _)
  by_cases hg : b.gap = 0
  · rw [if_pos hg] at hb1
    have := grow_fields hb1
    omega
  · rw [if_neg hg] at hb1
    simp only [pure, Except.pure, Except.ok.injEq] at hb1
    subst hb1
    omega

theorem loop_inv (n : Nat) : ∀ {b b' : gapbuf} {len : Nat}, Inv b →
    gapbuf_inserts_loop n b len = .ok b' → Inv b' ∧ len ≤ b'.gap := by
  induction n with
  | zero =>
    intro b b' len hi h
    unfold gapbuf_inserts_loop at h
    split at h
    · exact absurd h (by simp)
    · simp only [Except.ok.injEq] at h
      subst h
      exact ⟨hi, by omega⟩
  | succ n ih =>
    intro b b' len hi h
    unfold gapbuf_inserts_loop at h
    split at h
    · simp only [bind_ok_iff, size_sub_ok_iff] at h
      obtain ⟨b1, h1, fr, ⟨hfr, rfl⟩, h⟩ := h
      have hi0 : Inv { b with gap := 0 } := by
        unfold Inv at hi ⊢; dsimp only; omega
      have hf := insert_fields h1
      have hi1 := insert_inv hi0 h1
      refine ih ?_ h
      unfold Inv at hi1 ⊢
      dsimp only at hf ⊢
      omega
    · simp only [Except.ok.injEq] at h
      subst h
      exact ⟨hi, by omega⟩

theorem loop_no_underflow (n : Nat) : ∀ {b : gapbuf} {len : Nat}, Inv b →
    gapbuf_inserts_loop n b len ≠ .error .underflow := by
  induction n with
  | zero =>
    intro b len hi
    unfold gapbuf_inserts_loop
    split <;> simp
  | succ n ih =>
    intro b len hi
    unfold gapbuf_inserts_loop
    split
    · have hi0 : Inv { b with gap := 0 } := by
        unfold Inv at hi ⊢; dsimp only; omega
      refine bind_no_underflow (insert_no_underflow hi0) (fun b1 h1 => ?_)
      have hf := insert_fields h1
      have hi1 := insert_inv hi0 h1
      refine bind_no_underflow (size_sub_no_underflow (by omega)) (fun fr hfr => ?_)
      obtain ⟨_, rfl⟩ := (size_sub_ok_iff _ _ _).mp hfr
      refine ih ?_
      unfold Inv at hi1 ⊢
      dsimp only at hf ⊢
      omega
    · simp

theorem inserts_inv {b b' : gapbuf} {s : List Nat} (hi : Inv b)
    (h : gapbuf_inserts b s = .ok b') : Inv b' := by
  simp only [gapbuf_inserts, bind_ok_iff, size_sub_ok_iff, size_add_ok_iff, pure, Except.pure,
    Except.ok.injEq] at h
  obtain ⟨b1, h1, buf, _, fr, ⟨_, rfl⟩, g, ⟨hg, rfl⟩, rfl⟩ := h
  obtain ⟨hi1, hl⟩ := loop_inv 64 hi h1
  unfold Inv at hi1 ⊢
  dsimp only
  omega

theorem inserts_no_underflow {b : gapbuf} {s : List Nat} (hi : Inv b) :
    gapbuf_inserts b s ≠ .error .underflow := by
  unfold gapbuf_inserts
  refine bind_no_underflow (loop_no_underflow 64 hi) (fun b1 h1 => ?_)
  obtain ⟨hi1, hl⟩ := loop_inv 64 hi h1
  refine bind_no_underflow (mem_write_not_underflow _ _ _) (fun buf _ => ?_)
  refine bind_no_underflow (size_add_not_underflow _ _) (fun fr _ => ?_)
  exact bind_no_underflow (size_sub_no_underflow hl) (fun g _ => pure_no_underflow _)

theorem move_inv {b b' : gapbuf} {amt : Int} (hi : Inv b) (h : gapbuf_move b amt = .ok b') :
    Inv b' := by
  unfold gapbuf_move at h
  unfold Inv at hi ⊢
  split at h
  · simp only [bind_ok_iff, size_sub_ok_iff, ptr_sub_ok_iff, pure, Except.pure,
      Except.ok.injEq] at h
    obtain ⟨dst, _, src, _, fr, ⟨_, rfl⟩, buf, _, rfl⟩ := h
    dsimp only
    omega
  · simp only [bind_ok_iff, size_sub_ok_iff, size_add_ok_iff, pure, Except.pure,
      Except.ok.injEq] at h
    obtain ⟨back, ⟨_, rfl⟩, back2, ⟨_, rfl⟩, fr, ⟨_, rfl⟩, buf, _, rfl⟩ := h
    dsimp only
    split <;> omega

theorem move_no_underflow {b : gapbuf} {amt : Int} (hi : Inv b) :
    gapbuf_move b amt ≠ .error .underflow := by
  unfold gapbuf_move
  unfold Inv at hi
  split
  · refine bind_no_underflow (ptr_sub_not_underflow _ _) (fun dst _ => ?_)
    refine bind_no_underflow (ptr_sub_not_underflow _ _) (fun src _ => ?_)
    refine bind_no_underflow (size_sub_no_underflow ?_) (fun fr _ => ?_)
    · split <;> omega
    · exact bind_no_underflow (memmove_not_underflow _ _ _ _) (fun m _ => pure_no_underflow _)
  · refine bind_no_underflow (size_sub_no_underflow (by omega)) (fun back hb => ?_)
    obtain ⟨_, rfl⟩ := (size_sub_ok_iff _ _ _).mp hb
    refine bind_no_underflow (size_sub_no_underflow (by omega)) (fun back2 _ => ?_)
    refine bind_no_underflow (size_add_not_underflow _ _) (fun fr _ => ?_)
    exact bind_no_underflow (memmove_not_underflow _ _ _ _) (fun m _ => pure_no_underflow _)

theorem backward_inv {b b' : gapbuf} (hi : Inv b) (h : gapbuf_backward b = .ok b') :
    Inv b' := by
  unfold gapbuf_backward at h
  unfold Inv at hi ⊢
  split at h
  · simp only [bind_ok_iff, size_sub_ok_iff, size_add_ok_iff, pure, Except.pure,
      Except.ok.injEq] at h
    obtain ⟨i, _, i2, _, j, _, v, _, buf, _, fr, ⟨_, rfl⟩, rfl⟩ := h
    dsimp only
    omega
  · simp only [pure, Except.pure, Except.ok.injEq] at h
    subst h
    exact hi

theorem backward_no_underflow (b : gapbuf) : gapbuf_backward b ≠ .error .underflow := by
  unfold gapbuf_backward
  split
  · refine bind_no_underflow (size_add_not_underflow _ _) (fun i hi1 => ?_)
    obtain ⟨_, rfl⟩ := (size_add_ok_iff _ _ _).mp hi1
    refine bind_no_underflow (size_sub_no_underflow (by omega)) (fun i2 _ => ?_)
    refine bind_no_underflow (size_sub_no_underflow (by omega)) (fun j _ => ?_)
    refine bind_no_underflow (load_not_underflow _ _) (fun v _ => ?_)
    refine bind_no_underflow (store_not_underflow _ _ _) (fun buf _ => ?_)
    exact bind_no_underflow (size_sub_no_underflow (by omega)) (fun fr _ => pure_no_underflow _)
  · exact pure_no_underflow _

theorem forward_inv {b b' : gapbuf} (hi : Inv b) (h : gapbuf_forward b = .ok b') :
    Inv b' := by
  unfold gapbuf_forward at h
  unfold Inv at hi ⊢
  simp only [bind_ok_iff, size_sub_ok_iff] at h
  obtain ⟨back, ⟨_, rfl⟩, back2, ⟨_, rfl⟩, h⟩ := h
  split at h
  · simp only [bind_ok_iff, size_add_ok_iff, pure, Except.pure, Except.ok.injEq] at h
    obtain ⟨i, _, v, _, buf, _, fr, ⟨_, rfl⟩, rfl⟩ := h
    dsimp only
    omega
  · simp only [pure, Except.pure, Except.ok.injEq] at h
    subst h
    exact hi

theorem forward_no_underflow {b : gapbuf} (hi : Inv b) :
    gapbuf_forward b ≠ .error .underflow := by
  unfold gapbuf_forward
  unfold Inv at hi
  refine bind_no_underflow (size_sub_no_underflow (by omega)) (fun back hb => ?_)
  obtain ⟨_, rfl⟩ := (size_sub_ok_iff _ _ _).mp hb
  refine bind_no_underflow (size_sub_no_underflow (by omega)) (fun back2 _ => ?_)
  split
  · refine bind_no_underflow (size_add_not_underflow _ _) (fun i _ => ?_)
    refine bind_no_underflow (load_not_underflow _ _) (fun v _ => ?_)
    refine bind_no_underflow (store_not_underflow _ _ _) (fun buf _ => ?_)
    exact bind_no_underflow (size_add_not_underflow _ _) (fun fr _ => pure_no_underflow _)
  · exact pure_no_underflow _

theorem delete_inv {b b' : gapbuf} (hi : Inv b) (h : gapbuf_delete b = .ok b') : Inv b' := by
  unfold gapbuf_delete at h
  unfold Inv at hi ⊢
  simp only [bind_ok_iff, size_add_ok_iff] at h
  obtain ⟨e, ⟨_, rfl⟩, h⟩ := h
  split at h
  · simp only [bind_ok_iff, size_add_ok_iff, pure, Except.pure, Except.ok.injEq] at h
    obtain ⟨g, ⟨_, rfl⟩, rfl⟩ := h
    dsimp only
    omega
  · simp only [pure, Except.pure, Except.ok.injEq] at h
    subst h
    exact hi

theorem delete_no_underflow (b : gapbuf) : gapbuf_delete b ≠ .error .underflow := by
  unfold gapbuf_delete
  refine bind_no_underflow (size_add_not_underflow _ _) (fun e _ => ?_)
  split
  · exact bind_no_underflow (size_add_not_underflow _ _) (fun g _ => pure_no_underflow _)
  · exact pure_no_underflow _

theorem backspace_inv {b b' : gapbuf} (hi : Inv b) (h : gapbuf_backspace b = .ok b') :
    Inv b' := by
  unfold gapbuf_backspace at h
  unfold Inv at hi ⊢
  split at h
  · simp only [bind_ok_iff, size_sub_ok_iff, size_add_ok_iff, pure, Except.pure,
      Except.ok.injEq] at h
    obtain ⟨fr, ⟨_, rfl⟩, g, ⟨_, rfl⟩, rfl⟩ := h
    dsimp only
    omega
  · simp only [pure, Except.pure, Except.ok.injEq] at h
    subst h
    exact hi

theorem backspace_no_underflow (b : gapbuf) : gapbuf_backspace b ≠ .error .underflow := by
  unfold gapbuf_backspace
  split
  · refine bind_no_underflow (size_sub_no_underflow (by omega)) (fun fr _ => ?_)
    exact bind_no_underflow (size_add_not_underflow _ _) (fun g _ => pure_no_underflow _)
  · exact pure_no_underflow _

theorem step_inv {b b' : gapbuf} {op : Op} (hi : Inv b) (h : step b op = .ok b') : Inv b' := by
  cases op with
  | insert_unit c => exact insert_inv hi h
  | insert_run s => exact inserts_inv hi h
  | move_cursor amt => exact move_inv hi h
  | step_forward => exact forward_inv hi h
  | step_backward => exact backward_inv hi h
  | delete_forward => exact delete_inv hi h
  | delete_backward => exact backspace_inv hi h

theorem step_no_underflow {b : gapbuf} (op : Op) (hi : Inv b) :
    step b op ≠ .error .underflow := by
  cases op with
  | insert_unit c => exact insert_no_underflow hi
  | insert_run s => exact inserts_no_underflow hi
  | move_cursor amt => exact move_no_underflow hi
  | step_forward => exact forward_no_underflow hi
  | step_backward => exact backward_no_underflow b
  | delete_forward => exact delete_no_underflow b
  | delete_backward => exact backspace_no_underflow b

theorem run_inv (ops : List Op) : ∀ {b b' : gapbuf}, Inv b → run b ops = .ok b' → Inv b' := by
  induction ops with
  | nil =>
    intro b b' hi h
    simp only [run, Except.ok.injEq] at h
    subst h
    exact hi
  | cons op ops ih =>
    intro b b' hi h
    simp only [run, bind_ok_iff] at h
    obtain ⟨b1, h1, h⟩ := h
    exact ih (step_inv hi h1) h

/-- C2: every state reached from `gapbuf_init` (any requested capacity, zero included) by
a finite sequence of operations satisfies `front + gap ≤ total` and `total ≥ 1`; the
logical length `front + back_len` equals `total - gap` and is at most `total`; and no
operation started in such a state lets a `size_t` subtraction wrap below zero. -/
theorem reachable_invariant (init : Nat) (ops : List Op) (b : gapbuf)
    (h : (gapbuf_init init >>= fun b0 => run b0 ops) = .ok b) :
    b.front + b.gap ≤ b.total ∧ 1 ≤ b.total ∧
      b.front + back_len b = b.total - b.gap ∧ b.gap ≤ b.total ∧
      b.front + back_len b ≤ b.total ∧
      ∀ op, step b op ≠ .error .underflow := by
  obtain ⟨b0, h0, hr⟩ := (bind_ok_iff _ _ _).mp h
  have hi := run_inv ops (init_inv h0) hr
  have hi' := hi
  unfold Inv at hi'
  unfold back_len
  exact ⟨hi'.1, hi'.2, by omega, by omega, by omega, fun op => step_no_underflow op hi⟩

theorem reachable_invariant_witness :
    (2 : Nat) + 1 ≤ 8 ∧ 1 ≤ 8 ∧
      2 + back_len ⟨[some 97, some 98, some 0, none, some 0, none, some 0, none], 8, 2, 1⟩ =
        8 - 1 ∧ 1 ≤ 8 ∧
      2 + back_len ⟨[some 97, some 98, some 0, none, some 0, none, some 0, none], 8, 2, 1⟩ ≤ 8 ∧
      ∀ op, step ⟨[some 97, some 98, some 0, none, some 0, none, some 0, none], 8, 2, 1⟩ op ≠
        .error .underflow :=
  reachable_invariant 1 [Op.insert_run [97, 98]]
    ⟨[some 97, some 98, some 0, none, some 0, none, some 0, none], 8, 2, 1⟩ rfl

/-! ## Run insertion that has to grow -/

/-- C1: the buffer follows the reference model on the scenario of the demo script
(`"This is a buffer."`, `gapbuf_move` by `-7`, `gapbuf_inserts "gap "` gives
`"This is a gap buffer."`), but not on every sequence: after `gapbuf_init 1` and
`gapbuf_inserts "ab"` the reference text is `"ab"` with the cursor at 2, while the buffer,
with `front = 2`, materializes seven bytes, five of them from the growth loop. -/
theorem run_insert_growth_diverges_from_reference :
    ((gapbuf_init 38 >>= fun b => run b
        [.insert_run [84, 104, 105, 115, 32, 105, 115, 32, 97, 32, 98, 117, 102, 102, 101, 114, 46],
          .move_cursor (-7), .insert_run [103, 97, 112, 32]] >>= gapbuf_write) =
      .ok ((ref_run ⟨[], 0⟩
        [.insert_run [84, 104, 105, 115, 32, 105, 115, 32, 97, 32, 98, 117, 102, 102, 101, 114, 46],
          .move_cursor (-7), .insert_run [103, 97, 112, 32]]).text.map some)) ∧
    (ref_run ⟨[], 0⟩
        [.insert_run [84, 104, 105, 115, 32, 105, 115, 32, 97, 32, 98, 117, 102, 102, 101, 114, 46],
          .move_cursor (-7), .insert_run [103, 97, 112, 32]]).text =
      [84, 104, 105, 115, 32, 105, 115, 32, 97, 32, 103, 97, 112, 32, 98, 117, 102, 102, 101,
        114, 46] ∧
    ref_run ⟨[], 0⟩ [.insert_run [97, 98]] = ⟨[97, 98], 2⟩ ∧
    ((gapbuf_init 1 >>= fun b => run b [.insert_run [97, 98]]) =
      .ok ⟨[some 97, some 98, some 0, none, some 0, none, some 0, none], 8, 2, 1⟩) ∧
    ((gapbuf_init 1 >>= fun b => run b [.insert_run [97, 98]] >>= gapbuf_write) =
      .ok [some 97, some 98, none, some 0, none, some 0, none]) :=
  ⟨rfl, by decide, by decide, rfl, rfl⟩

/-- C3: on the well-formed buffer `gapbuf_init 1` (empty content, gap of one byte),
`gapbuf_inserts "ab"` has to grow and does not give the content `"" ++ "ab" ++ ""`: the
buffer then materializes seven bytes, so its logical length grew by seven, not by two. -/
theorem inserts_growth_adds_bytes :
    gapbuf_init 1 = .ok ⟨[none], 1, 0, 1⟩ ∧ WF ⟨[none], 1, 0, 1⟩ ∧
    gapbuf_write ⟨[none], 1, 0, 1⟩ = .ok [] ∧
    (∃ b', gapbuf_inserts ⟨[none], 1, 0, 1⟩ [97, 98] = .ok b' ∧
      gapbuf_write b' = .ok [some 97, some 98, none, some 0, none, some 0, none] ∧
      gapbuf_write b' ≠ .ok ([] ++ [some 97, some 98] ++ []) ∧
      b'.front + back_len b' = 0 + back_len ⟨[none], 1, 0, 1⟩ + 7) :=
  ⟨rfl, by decide, rfl,
    ⟨[some 97, some 98, some 0, none, some 0, none, some 0, none], 8, 2, 1⟩, rfl, rfl,
    by simp [gapbuf_write, mem_read, size_sub, bind, Except.bind, pure, Except.pure],
    by decide⟩

/-- C4: on the well-formed buffer `gapbuf_init 1`, `gapbuf_inserts "ab"` and the two calls
`gapbuf_insert 'a'`, `gapbuf_insert 'b'` end with the same `front = 2` but not with the
same content: the two calls give `"ab"`, the run insertion gives seven bytes. -/
theorem inserts_differs_from_sequential_inserts :
    (∃ b1 b2, gapbuf_inserts ⟨[none], 1, 0, 1⟩ [97, 98] = .ok b1 ∧
      (gapbuf_insert ⟨[none], 1, 0, 1⟩ 97 >>= fun b => gapbuf_insert b 98) = .ok b2 ∧
      b1.front = 2 ∧ b2.front = 2 ∧
      gapbuf_write b2 = .ok [some 97, some 98] ∧
      gapbuf_write b1 = .ok [some 97, some 98, none, some 0, none, some 0, none] ∧
      gapbuf_write b1 ≠ gapbuf_write b2) :=
  ⟨⟨[some 97, some 98, some 0, none, some 0, none, some 0, none], 8, 2, 1⟩,
    ⟨[some 97, some 98], 2, 2, 0⟩, rfl, rfl, rfl, rfl, rfl, rfl,
    by simp [gapbuf_write, mem_read, size_sub, bind, Except.bind, pure, Except.pure]⟩

/-! ## The fuel of the growth loop -/

theorem bind_no_fuel {α β : Type} {x : Except Fault α} {f : α → Except Fault β}
    (hx : x ≠ .error .fuel) (hf : ∀ a, x = .ok a → f a ≠ .error .fuel) :
    (x >>= f) ≠ .error .fuel := by
  intro h
  rcases (bind_error_iff _ _ _).mp h with h | ⟨a, ha, h⟩
  · exact hx h
  · exact hf a ha h

theorem insert_no_fuel (b : gapbuf) (c : Int) : gapbuf_insert b c ≠ .error .fuel := by
  have hp : ∀ (α : Type) (a : α), (pure a : Except Fault α) ≠ .error .fuel := by
    intro α a; simp [pure, Except.pure]
  have hsub : ∀ a c : Nat, size_sub a c ≠ .error .fuel := by
    intro a c; unfold size_sub; split <;> simp
  have hadd : ∀ a c : Nat, size_add a c ≠ .error .fuel := by
    intro a c; unfold size_add; split <;> simp
  have hmul : ∀ a c : Nat, size_mul a c ≠ .error .fuel := by
    intro a c; unfold size_mul; split <;> simp
  have hrd : ∀ (l : List cell) (a c : Nat), mem_read l a c ≠ .error .fuel := by
    intro l a c; unfold mem_read; split <;> simp
  have hwr : ∀ (l : List cell) (a : Nat) (y : List cell), mem_write l a y ≠ .error .fuel := by
    intro l a y; unfold mem_write; split <;> simp
  have hmv : ∀ (l : List cell) (d s n : Nat), memmove l d s n ≠ .error .fuel := by
    intro l d s n; unfold memmove
    exact bind_no_fuel (hrd _ _ _) (fun t _ => hwr _ _ _)
  have hgrow : gapbuf_insert_grow b ≠ .error .fuel := by
    unfold gapbuf_insert_grow
    refine bind_no_fuel (hsub _ _) (fun back _ => ?_)
    refine bind_no_fuel (hmul _ _) (fun t _ => ?_)
    exact bind_no_fuel (hmv _ _ _ _) (fun m _ => hp _ _)
  unfold gapbuf_insert
  have h1 : (if b.gap = 0 then gapbuf_insert_grow b else pure b) ≠ .error .fuel := by
    split
    · exact hgrow
    · exact hp _ _
  refine bind_no_fuel h1 (fun b1 _ => ?_)
  refine bind_no_fuel (hwr _ _ _) (fun buf _ => ?_)
  refine bind_no_fuel (hadd _ _) (fun fr _ => ?_)
  exact bind_no_fuel (hsub _ _) (fun g _ => hp _ _)

/-- Effect of a successful growing `gapbuf_insert` on `total`. -/
theorem insert_grow_total {b b' : gapbuf} {c : Int} (hg : b.gap = 0)
    (h : gapbuf_insert b c = .ok b') :
    1 ≤ b.total ∧ b'.total = b.total * 2 ∧ b.total * 2 ≤ SIZE_MAX := by
  have hf := insert_fields h
  unfold gapbuf_insert at h
  simp only [hg, if_true, gapbuf_insert_grow, bind_ok_iff, size_mul_ok_iff, pure, Except.pure,
    Except.ok.injEq] at h
  obtain ⟨b1, ⟨back, _, total, ⟨ht, rfl⟩, buf, hm, rfl⟩, _⟩ := h
  omega

theorem loop_fuel_aux (n : Nat) : ∀ (b : gapbuf) (len : Nat), 1 ≤ b.total →
    b.total ≤ SIZE_MAX → SIZE_MAX < b.total * 2 ^ n →
    gapbuf_inserts_loop n b len ≠ .error .fuel := by
  induction n with
  | zero =>
    intro b len h1 hmax hlt
    simp only [pow_zero, Nat.mul_one] at hlt
    omega
  | succ n ih =>
    intro b len h1 hmax hlt
    unfold gapbuf_inserts_loop
    split
    · refine bind_no_fuel (insert_no_fuel _ _) (fun b1 hb1 => ?_)
      have ht := insert_grow_total (b := { b with gap := 0 }) rfl hb1
      dsimp only at ht
      refine bind_no_fuel (by unfold size_sub; split <;> simp) (fun fr _ => ?_)
      refine ih _ len (by dsimp only; omega) (by dsimp only; omega) ?_
      dsimp only
      rw [ht.2.1]
      rw [pow_succ] at hlt
      calc SIZE_MAX < b.total * (2 ^ n * 2) := hlt
        _ = b.total * 2 * 2 ^ n := by ring
    · simp

/-- The fuel of `gapbuf_inserts` is never what stops the growth loop: every iteration
that does not fault doubles `total`, which stays a `size_t`. -/
theorem loop_fuel_suffices (b : gapbuf) (len : Nat) :
    gapbuf_inserts_loop 64 b len ≠ .error .fuel := by
  by_cases h : 1 ≤ b.total ∧ b.total ≤ SIZE_MAX
  · refine loop_fuel_aux 64 b len h.1 h.2 ?_
    rw [SIZE_MAX_eq]
    have := h.1
    omega
  · unfold gapbuf_inserts_loop
    split
    · refine bind_no_fuel (insert_no_fuel _ _) (fun b1 hb1 => ?_)
      have ht := insert_grow_total (b := { b with gap := 0 }) rfl hb1
      dsimp only at ht
      omega
    · simp


/-! ## The growth loop of `gapbuf_inserts` -/

/-- One iteration of the growth loop on a buffer with front `F`, gap `G` and back `B`:
`total` doubles, `front` is restored, and the new back segment ends with `B`. -/
theorem loop_body_rep {b : gapbuf} {F G B : List cell} (h : Rep b F G B) (h1 : 1 ≤ b.total)
    (hcap : 2 * b.total ≤ SIZE_MAX) :
    ∃ b1 G2 Y, gapbuf_insert { b with gap := 0 } 0 = .ok b1 ∧
      size_sub b1.front 1 = .ok b.front ∧
      Rep { b1 with front := b.front } F G2 (Y ++ B) ∧ b1.total = 2 * b.total ∧
      b1.gap + 1 = b.total := by
  obtain ⟨e1, e2, e3, e4⟩ := h
  have h0 : Rep { b with gap := 0 } F [] (G ++ B) := by
    refine ⟨?_, e2, rfl, ?_⟩
    · simp [e1]
    · simp only [List.length_nil, List.length_append]; omega
  obtain ⟨b1, G', e, r, t, g⟩ := insert_rep 0 h0 h1 (show b.total ≤ SIZE_MAX by omega) (fun _ => hcap)
  simp only [if_true] at t g
  obtain ⟨r1, r2, r3, r4⟩ := r
  simp only [List.length_append, List.length_cons, List.length_nil] at r2 r4
  refine ⟨b1, (some (to_char 0) :: G').take G'.length,
    (some (to_char 0) :: G').drop G'.length ++ G, e, ?_, ⟨?_, e2, ?_, ?_⟩, t, g⟩
  · rw [size_sub_ok (by omega)]
    congr 1
    omega
  · simp only [r1, List.append_assoc, take_drop_app]
    simp
  · simp [r3]
  · simp only [List.length_append, List.length_take, List.length_drop, List.length_cons]
    omega

theorem loop_spec (len : Nat) (hlen : 4 * len ≤ SIZE_MAX) (n : Nat) :
    ∀ (b : gapbuf) (F G B : List cell), Rep b F G B → 1 ≤ b.total → b.total ≤ SIZE_MAX →
      (b.gap < len → 2 * b.total ≤ SIZE_MAX) →
      gapbuf_inserts_loop n b len = .error .fuel ∨
      ∃ k b' G' Y, k ≤ n ∧ (∀ m, k ≤ m → gapbuf_inserts_loop m b len = .ok b') ∧
        Rep b' F G' (Y ++ B) ∧ b'.total = b.total * 2 ^ k ∧ len ≤ b'.gap ∧
        b'.total ≤ SIZE_MAX := by
  have hstop : ∀ (b : gapbuf) (F G B : List cell), Rep b F G B → b.total ≤ SIZE_MAX →
      ¬ b.gap < len →
      ∃ k b' G' Y, k ≤ 0 ∧ (∀ m, k ≤ m → gapbuf_inserts_loop m b len = .ok b') ∧
        Rep b' F G' (Y ++ B) ∧ b'.total = b.total * 2 ^ k ∧ len ≤ b'.gap ∧
        b'.total ≤ SIZE_MAX := by
    intro b F G B hr hmax hg
    refine ⟨0, b, G, [], le_refl _, ?_, by simpa using hr, by simp, by omega, hmax⟩
    intro m _
    cases m with
    | zero => simp only [gapbuf_inserts_loop, hg, if_false]
    | succ m => simp only [gapbuf_inserts_loop, hg, if_false]
  induction n with
  | zero =>
    intro b F G B hr h1 hmax hcap
    by_cases hg : b.gap < len
    · left
      simp only [gapbuf_inserts_loop, hg, if_true]
    · right
      exact hstop b F G B hr hmax hg
  | succ n ih =>
    intro b F G B hr h1 hmax hcap
    by_cases hg : b.gap < len
    · obtain ⟨b1, G2, Y, e, es, r, t, g⟩ := loop_body_rep hr h1 (hcap hg)
      have hstep : ∀ m, gapbuf_inserts_loop (m + 1) b len =
          gapbuf_inserts_loop m { b1 with front := b.front } len := by
        intro m
        simp only [gapbuf_inserts_loop, hg, if_true, e, es, bind, Except.bind]
      rcases ih { b1 with front := b.front } F G2 (Y ++ B) r (by dsimp only; omega)
          (by dsimp only; omega) (by dsimp only; intro _; omega) with hf | hok
      · left
        rw [hstep, hf]
      · right
        obtain ⟨k, b', G', Y', hk, hall, r', t', g', m'⟩ := hok
        refine ⟨k + 1, b', G', Y' ++ Y, by omega, ?_, by simpa using r', ?_, g', m'⟩
        · intro m hm
          obtain ⟨m0, rfl⟩ : ∃ m0, m = m0 + 1 := ⟨m - 1, by omega⟩
          rw [hstep]
          exact hall m0 (by omega)
        · dsimp only at t'
          rw [t', t, pow_succ]
          ring
    · right
      obtain ⟨k, b', G', Y, hk, rest⟩ := hstop b F G B hr hmax hg
      exact ⟨k, b', G', Y, by omega, rest⟩


theorem loop_ok {b : gapbuf} {F G B : List cell} (len : Nat) (hr : Rep b F G B)
    (h1 : 1 ≤ b.total) (hmax : b.total ≤ SIZE_MAX)
    (hcap : b.gap < len → 4 * (b.total + len) ≤ SIZE_MAX) :
    ∃ k b' G' Y, k ≤ 64 ∧ (∀ m, k ≤ m → gapbuf_inserts_loop m b len = .ok b') ∧
      Rep b' F G' (Y ++ B) ∧ b'.total = b.total * 2 ^ k ∧ len ≤ b'.gap ∧
      b'.total ≤ SIZE_MAX ∧ (len ≤ b.gap → k = 0 ∧ b' = b ∧ G' = G ∧ Y = []) := by
  by_cases hg : b.gap < len
  · have hc := hcap hg
    rcases loop_spec len (by omega) 64 b F G B hr h1 hmax (fun _ => by omega) with hf | hok
    · exact absurd hf (loop_fuel_suffices b len)
    · obtain ⟨k, b', G', Y, hk, hall, r, t, g, m⟩ := hok
      exact ⟨k, b', G', Y, hk, hall, r, t, g, m, fun hle => absurd hg (by omega)⟩
  · refine ⟨0, b, G, [], by omega, ?_, by simpa using hr, by simp, by omega, hmax,
      fun _ => ⟨rfl, rfl, rfl, rfl⟩⟩
    intro m _
    cases m with
    | zero => simp only [gapbuf_inserts_loop, hg, if_false]
    | succ m => simp only [gapbuf_inserts_loop, hg, if_false]

/-- `gapbuf_inserts` on a buffer with front `F`, gap `G` and back `B`: the run lands after
`F`, the back segment still ends with `B`, and `total` was doubled `k` times. -/
theorem inserts_rep {b : gapbuf} {F G B : List cell} (s : List Nat) (hr : Rep b F G B)
    (h1 : 1 ≤ b.total) (hmax : b.total ≤ SIZE_MAX)
    (hcap : b.gap < s.length → 4 * (b.total + s.length) ≤ SIZE_MAX) :
    ∃ k b' G' Y, k ≤ 64 ∧ gapbuf_inserts b s = .ok b' ∧
      Rep b' (F ++ s.map some) G' (Y ++ B) ∧ b'.total = b.total * 2 ^ k ∧
      b'.total ≤ SIZE_MAX ∧ (s.length ≤ b.gap → k = 0 ∧ G' = G.drop s.length ∧ Y = []) := by
  obtain ⟨k, b0, G0, Y, hk, hall, r, t, g, m, hsame⟩ := loop_ok s.length hr h1 hmax hcap
  obtain ⟨r1, r2, r3, r4⟩ := r
  have hw : mem_write b0.buf b0.front (s.map some) =
      .ok (F ++ s.map some ++ (G0.drop s.length ++ (Y ++ B))) :=
    mem_write_eq F (G0.take s.length) (G0.drop s.length ++ (Y ++ B)) (s.map some)
      (by rw [r1]; simp only [List.append_assoc, take_drop_app]) r2
      (by rw [List.length_map, List.length_take]; omega)
  have hfl : b0.front + s.length ≤ SIZE_MAX := by
    simp only [List.length_append] at r4; omega
  refine ⟨k, ⟨F ++ s.map some ++ (G0.drop s.length ++ (Y ++ B)), b0.total,
      b0.front + s.length, b0.gap - s.length⟩, G0.drop s.length, Y, hk, ?_,
      ⟨?_, ?_, ?_, ?_⟩, t, m, ?_⟩
  · simp (disch := omega) only [gapbuf_inserts, hall 64 hk, hw, size_add_ok hfl, size_sub_ok,
      bind, Except.bind, pure, Except.pure]
  · simp only [List.append_assoc]
  · simp only [List.length_append, List.length_map]; omega
  · simp only [List.length_drop]; omega
  · simp only [List.length_append, List.length_map, List.length_drop] at r4 ⊢; omega
  · intro hle
    obtain ⟨hk0, _, hG, hY⟩ := hsame hle
    exact ⟨hk0, by rw [hG], hY⟩


/-- C13: on a well-formed buffer `gapbuf_inserts` succeeds for every run, also when it has
to grow (the grown capacity staying a `size_t`), and the cursor offset `front` afterwards
is the old `front` plus the length of the run. -/
theorem inserts_front_advances (b : gapbuf) (s : List Nat) (hwf : WF b)
    (hcap : b.gap < s.length → 4 * (b.total + s.length) ≤ SIZE_MAX) :
    ∃ b', gapbuf_inserts b s = .ok b' ∧ b'.front = b.front + s.length := by
  obtain ⟨F, G, B, hrep⟩ := exists_rep hwf
  obtain ⟨_, _, h1, hmax⟩ := hwf
  obtain ⟨k, b', G', Y, _, e, r, _⟩ := inserts_rep s hrep h1 hmax hcap
  refine ⟨b', e, ?_⟩
  rw [r.2.1, hrep.2.1, List.length_append, List.length_map]

theorem inserts_front_advances_witness :
    ∃ b', gapbuf_inserts ⟨[some 120, none, some 121], 3, 1, 1⟩ [97, 98] = .ok b' ∧
      b'.front = 1 + [97, 98].length :=
  inserts_front_advances ⟨[some 120, none, some 121], 3, 1, 1⟩ [97, 98] (by decide) (by decide)

/-- C19: on a well-formed buffer (so `total ≥ 1`) and for every run length `len`, the
growth loop of `gapbuf_inserts` ends after some number `k ≤ 64` of iterations, every
amount of fuel from `k` on giving the same state; `total` was doubled `k` times, and at
the exit `gap ≥ len` and `front` is what it was before the loop. -/
theorem inserts_loop_terminates (b : gapbuf) (len : Nat) (hwf : WF b)
    (hcap : b.gap < len → 4 * (b.total + len) ≤ SIZE_MAX) :
    ∃ k b', k ≤ 64 ∧ (∀ n, k ≤ n → gapbuf_inserts_loop n b len = .ok b') ∧
      b'.total = b.total * 2 ^ k ∧ len ≤ b'.gap ∧ b'.front = b.front := by
  obtain ⟨F, G, B, hrep⟩ := exists_rep hwf
  obtain ⟨_, _, h1, hmax⟩ := hwf
  obtain ⟨k, b', G', Y, hk, hall, r, t, g, _⟩ := loop_ok len hrep h1 hmax hcap
  exact ⟨k, b', hk, hall, t, g, by rw [r.2.1, hrep.2.1]⟩

theorem inserts_loop_terminates_witness :
    ∃ k b', k ≤ 64 ∧
      (∀ n, k ≤ n → gapbuf_inserts_loop n ⟨[some 120, none, some 121], 3, 1, 1⟩ 5 = .ok b') ∧
      b'.total = 3 * 2 ^ k ∧ 5 ≤ b'.gap ∧ b'.front = 1 :=
  inserts_loop_terminates ⟨[some 120, none, some 121], 3, 1, 1⟩ 5 (by decide) (by decide)

/-- C20: on a well-formed buffer `gapbuf_inserts` succeeds, also when it has to grow, and
in the content materialized afterwards the first `front + len` units are the old content
before the cursor followed by the run, and the last `back_len` units (`back_len` taken
before the call) are the old content after the cursor. -/
theorem inserts_keeps_old_content (b : gapbuf) (s : List Nat) (hwf : WF b)
    (hcap : b.gap < s.length → 4 * (b.total + s.length) ≤ SIZE_MAX) :
    ∃ l b' l', gapbuf_write b = .ok l ∧ gapbuf_inserts b s = .ok b' ∧
      gapbuf_write b' = .ok l' ∧
      l'.take (b.front + s.length) = l.take b.front ++ s.map some ∧
      l'.drop (l'.length - back_len b) = l.drop b.front := by
  obtain ⟨F, G, B, hrep⟩ := exists_rep hwf
  obtain ⟨_, _, h1, hmax⟩ := hwf
  obtain ⟨k, b', G', Y, _, e, r, _⟩ := inserts_rep s hrep h1 hmax hcap
  have hfl : b.front = F.length := hrep.2.1
  have hbl : back_len b = B.length := (rep_length hrep).2.2
  refine ⟨F ++ B, b', F ++ s.map some ++ (Y ++ B), write_rep hrep, e, write_rep r, ?_, ?_⟩
  · have hl : b.front + s.length = (F ++ s.map some).length := by
      rw [List.length_append, List.length_map, hfl]
    rw [hl, List.take_left, hfl, List.take_left]
  · have hl : (F ++ s.map some ++ (Y ++ B)).length - back_len b =
        (F ++ s.map some ++ Y).length := by
      simp only [List.length_append, List.length_map, hbl]; omega
    rw [hl, ← List.append_assoc, List.drop_left, hfl, List.drop_left]

theorem inserts_keeps_old_content_witness :
    ∃ l b' l', gapbuf_write ⟨[some 120, none, some 121], 3, 1, 1⟩ = .ok l ∧
      gapbuf_inserts ⟨[some 120, none, some 121], 3, 1, 1⟩ [97, 98] = .ok b' ∧
      gapbuf_write b' = .ok l' ∧
      l'.take (1 + [97, 98].length) = l.take 1 ++ [97, 98].map some ∧
      l'.drop (l'.length - back_len ⟨[some 120, none, some 121], 3, 1, 1⟩) = l.drop 1 :=
  inserts_keeps_old_content ⟨[some 120, none, some 121], 3, 1, 1⟩ [97, 98] (by decide)
    (by decide)


/-! ## Runs that fit into the gap -/

theorem rep_unique {b b' : gapbuf} {F G B : List cell} (h : Rep b F G B) (h' : Rep b' F G B) :
    b = b' := by
  obtain ⟨buf, total, front, gap⟩ := b
  obtain ⟨buf', total', front', gap'⟩ := b'
  obtain ⟨e1, e2, e3, e4⟩ := h
  obtain ⟨f1, f2, f3, f4⟩ := h'
  simp only at e1 e2 e3 e4 f1 f2 f3 f4
  subst e1 e2 e3 e4 f1 f2 f3 f4
  rfl

theorem insert_nogrow_rep {b : gapbuf} {F G B : List cell} (g : cell) (c : Int)
    (h : Rep b F (g :: G) B) (hmax : b.total ≤ SIZE_MAX) :
    ∃ b', gapbuf_insert b c = .ok b' ∧ Rep b' (F ++ [some (to_char c)]) G B ∧
      b'.total = b.total := by
  have hg : b.gap ≠ 0 := by
    have := h.2.2.1
    simp only [List.length_cons] at this
    omega
  obtain ⟨b2, e2, r2, t2⟩ := insert_store_rep g c h hmax
  refine ⟨b2, ?_, r2, t2⟩
  simp only [gapbuf_insert, hg, if_false, bind, Except.bind, pure, Except.pure]
  exact e2

theorem insert_each_rep (s : List Nat) : ∀ (b : gapbuf) (F X G B : List cell),
    Rep b F (X ++ G) B → X.length = s.length → (∀ u ∈ s, u < 256) → b.total ≤ SIZE_MAX →
    ∃ b', gapbuf_insert_each b s = .ok b' ∧ Rep b' (F ++ s.map some) G B := by
  induction s with
  | nil =>
    intro b F X G B hr hX _ _
    have hnil : X = [] := List.length_eq_zero.mp hX
    subst hnil
    exact ⟨b, rfl, by simpa using hr⟩
  | cons u s ih =>
    intro b F X G B hr hX hu hmax
    obtain ⟨x, X', rfl⟩ : ∃ x X', X = x :: X' := by
      cases X with
      | nil => simp at hX
      | cons x X' => exact ⟨x, X', rfl⟩
    obtain ⟨b1, e1, r1, t1⟩ := insert_nogrow_rep x (u : Int) hr hmax
    rw [to_char_of_lt (hu u (List.mem_cons_self u s))] at r1
    obtain ⟨b', e', r'⟩ := ih b1 (F ++ [some u]) X' G B r1 (by simpa using hX)
      (fun v hv => hu v (List.mem_cons_of_mem u hv)) (by omega)
    refine ⟨b', ?_, by simpa using r'⟩
    simp only [gapbuf_insert_each, e1, bind, Except.bind]
    exact e'

/-- C18: on a well-formed buffer, a run of byte values that fits into the gap is inserted
without growth: `gapbuf_inserts` succeeds with `total` and the storage size unchanged,
the storage before `front` and from `front + len` on unchanged, the materialized content
becomes the old content before the cursor, the run, the old content after the cursor, and
the resulting record is the one that one `gapbuf_insert` per unit gives. -/
theorem inserts_within_gap (b : gapbuf) (s : List Nat) (hwf : WF b)
    (hfit : s.length ≤ b.gap) (hunits : ∀ u ∈ s, u < 256) :
    ∃ l b', gapbuf_write b = .ok l ∧ gapbuf_inserts b s = .ok b' ∧
      b'.total = b.total ∧ b'.buf.length = b.buf.length ∧
      b'.buf.take b.front = b.buf.take b.front ∧
      b'.buf.drop (b.front + s.length) = b.buf.drop (b.front + s.length) ∧
      gapbuf_write b' = .ok (l.take b.front ++ s.map some ++ l.drop b.front) ∧
      gapbuf_insert_each b s = .ok b' := by
  obtain ⟨F, G, B, hrep⟩ := exists_rep hwf
  obtain ⟨_, _, h1, hmax⟩ := hwf
  obtain ⟨k, b', G', Y, _, e, r, t, _, hsame⟩ :=
    inserts_rep s hrep h1 hmax (fun hlt => absurd hlt (by omega))
  obtain ⟨hk, hG, hY⟩ := hsame hfit
  subst hk hG hY
  simp only [List.nil_append, pow_zero, Nat.mul_one] at r t
  have hfl : b.front = F.length := hrep.2.1
  have hgl : b.gap = G.length := hrep.2.2.1
  have hsplit : Rep b F (G.take s.length ++ G.drop s.length) B := by
    rw [List.take_append_drop]; exact hrep
  obtain ⟨b2, e2, r2⟩ := insert_each_rep s b F (G.take s.length) (G.drop s.length) B hsplit
    (by rw [List.length_take]; omega) hunits hmax
  have hb : b2 = b' := rep_unique r2 r
  subst hb
  have hbuf : b.buf = F ++ G.take s.length ++ (G.drop s.length ++ B) := by
    rw [hrep.1]; simp only [List.append_assoc, take_drop_app]
  have hbuf' : b2.buf = F ++ s.map some ++ (G.drop s.length ++ B) := by
    rw [r.1]; simp only [List.append_assoc]
  refine ⟨F ++ B, b2, write_rep hrep, e, t, ?_, ?_, ?_, ?_, e2⟩
  · rw [hbuf, hbuf']
    simp only [List.length_append, List.length_map, List.length_take]
    omega
  · rw [hbuf, hbuf', hfl, List.append_assoc, List.take_left, List.append_assoc, List.take_left]
  · have h1 : b.front + s.length = (F ++ G.take s.length).length := by
      rw [List.length_append, List.length_take, hfl]; omega
    have h2 : b.front + s.length = (F ++ s.map some).length := by
      rw [List.length_append, List.length_map, hfl]
    rw [hbuf']
    rw [h2, List.drop_left, ← h2, hbuf, h1, List.drop_left]
  · rw [write_rep r, hfl, List.take_left, List.drop_left]

theorem inserts_within_gap_witness :
    ∃ l b', gapbuf_write ⟨[some 120, none, none, none, some 121], 5, 1, 3⟩ = .ok l ∧
      gapbuf_inserts ⟨[some 120, none, none, none, some 121], 5, 1, 3⟩ [97, 98] = .ok b' ∧
      b'.total = 5 ∧ b'.buf.length = [some 120, none, none, none, some 121].length ∧
      b'.buf.take 1 = [some 120, none, none, none, some 121].take 1 ∧
      b'.buf.drop (1 + [97, 98].length) =
        [some 120, none, none, none, some 121].drop (1 + [97, 98].length) ∧
      gapbuf_write b' = .ok (l.take 1 ++ [97, 98].map some ++ l.drop 1) ∧
      gapbuf_insert_each ⟨[some 120, none, none, none, some 121], 5, 1, 3⟩ [97, 98] = .ok b' :=
  inserts_within_gap ⟨[some 120, none, none, none, some 121], 5, 1, 3⟩ [97, 98] (by decide)
    (by decide) (by decide)


/-! ## Growth and capacity -/

/-- C16: on a well-formed buffer with `gap = 0` (the doubled capacity being a `size_t`),
the growth step of `gapbuf_insert` succeeds; the state it leaves before the new unit is
written has the same `front` and the same materialized content, `gap` equal to the old
`total`, a storage of twice the old `total`, and the back segment in the last `back_len`
slots of that storage. -/
theorem insert_growth_step (b : gapbuf) (hwf : WF b) (hgap : b.gap = 0)
    (hcap : 2 * b.total ≤ SIZE_MAX) :
    ∃ l b1, gapbuf_write b = .ok l ∧ gapbuf_insert_grow b = .ok b1 ∧
      b1.front = b.front ∧ gapbuf_write b1 = .ok l ∧ b1.gap = b.total ∧
      b1.total = 2 * b.total ∧ b1.buf.length = b1.total ∧
      back_len b1 = back_len b ∧
      b1.buf.drop (b1.total - back_len b) = l.drop b.front := by
  obtain ⟨F, G, B, hrep⟩ := exists_rep hwf
  have hG : G = [] := by
    have := hrep.2.2.1; rw [hgap] at this; exact List.length_eq_zero.mp this.symm
  subst hG
  obtain ⟨b1, e, r, t⟩ := insert_grow_rep hrep hcap
  have hfl : b.front = F.length := hrep.2.1
  have hbl : back_len b = B.length := (rep_length hrep).2.2
  have h4 := hrep.2.2.2
  simp only [List.length_nil, Nat.add_zero] at h4
  refine ⟨F ++ B, b1, write_rep hrep, e, ?_, write_rep r, ?_, t, (rep_length r).1, ?_, ?_⟩
  · rw [r.2.1, hfl]
  · rw [r.2.2.1]; simp only [List.length_append, List.length_replicate]; omega
  · rw [(rep_length r).2.2, hbl]
  · have hl : b1.total - back_len b = (F ++ (B ++ List.replicate F.length none)).length := by
      simp only [List.length_append, List.length_replicate, hbl, t]; omega
    rw [r.1, hl, List.drop_left, hfl, List.drop_left]

theorem insert_growth_step_witness :
    ∃ l b1, gapbuf_write ⟨[some 104, some 105], 2, 1, 0⟩ = .ok l ∧
      gapbuf_insert_grow ⟨[some 104, some 105], 2, 1, 0⟩ = .ok b1 ∧
      b1.front = 1 ∧ gapbuf_write b1 = .ok l ∧ b1.gap = 2 ∧
      b1.total = 2 * 2 ∧ b1.buf.length = b1.total ∧
      back_len b1 = back_len ⟨[some 104, some 105], 2, 1, 0⟩ ∧
      b1.buf.drop (b1.total - back_len ⟨[some 104, some 105], 2, 1, 0⟩) = l.drop 1 :=
  insert_growth_step ⟨[some 104, some 105], 2, 1, 0⟩ (by decide) (by decide) (by decide)

theorem delete_ok (b : gapbuf) (hwf : WF b) :
    ∃ b', gapbuf_delete b = .ok b' ∧ b'.total = b.total ∧ (back_len b = 0 → b' = b) := by
  obtain ⟨_, hfg, _, hmax⟩ := hwf
  have ha : b.front + b.gap ≤ SIZE_MAX := by omega
  by_cases hlt : b.total > b.front + b.gap
  · have hg : b.gap + 1 ≤ SIZE_MAX := by omega
    refine ⟨{ b with gap := b.gap + 1 }, ?_, rfl, ?_⟩
    · simp only [gapbuf_delete, size_add_ok ha, size_add_ok hg, hlt, if_true, bind, Except.bind,
        pure, Except.pure]
    · intro h0; unfold back_len at h0; omega
  · refine ⟨b, ?_, rfl, fun _ => rfl⟩
    simp only [gapbuf_delete, size_add_ok ha, hlt, if_false, bind, Except.bind, pure,
      Except.pure]

theorem backspace_ok (b : gapbuf) (hwf : WF b) :
    ∃ b', gapbuf_backspace b = .ok b' ∧ b'.total = b.total ∧ (b.front = 0 → b' = b) := by
  obtain ⟨_, hfg, _, hmax⟩ := hwf
  by_cases hne : b.front ≠ 0
  · have hg : b.gap + 1 ≤ SIZE_MAX := by omega
    refine ⟨{ b with front := b.front - 1, gap := b.gap + 1 }, ?_, rfl, ?_⟩
    · simp (disch := omega) only [gapbuf_backspace, hne, ne_eq, not_false_eq_true, if_true,
        size_sub_ok, size_add_ok hg, bind, Except.bind, pure, Except.pure]
    · intro h0; exact absurd h0 hne
  · refine ⟨b, ?_, rfl, fun _ => rfl⟩
    simp only [gapbuf_backspace, hne, if_false, pure, Except.pure]


/-- C17: on a well-formed buffer, `gapbuf_move`, `gapbuf_forward`, `gapbuf_backward`,
`gapbuf_delete` and `gapbuf_backspace` succeed and leave `total` unchanged;
`gapbuf_insert` succeeds and changes `total` exactly when `gap = 0` beforehand, the new
`total` being twice the old; `gapbuf_inserts` succeeds and leaves `total` equal to the old
`total` times a power of two, so `total` never decreases. -/
theorem capacity_only_doubles (b : gapbuf) (amt c : Int) (s : List Nat) (hwf : WF b)
    (hlo : -(2 ^ 63) ≤ amt) (hhi : amt < 2 ^ 63)
    (hgrow : b.gap = 0 → 2 * b.total ≤ SIZE_MAX)
    (hcap : b.gap < s.length → 4 * (b.total + s.length) ≤ SIZE_MAX) :
    (∃ b', gapbuf_move b amt = .ok b' ∧ b'.total = b.total) ∧
    (∃ b', gapbuf_forward b = .ok b' ∧ b'.total = b.total) ∧
    (∃ b', gapbuf_backward b = .ok b' ∧ b'.total = b.total) ∧
    (∃ b', gapbuf_delete b = .ok b' ∧ b'.total = b.total) ∧
    (∃ b', gapbuf_backspace b = .ok b' ∧ b'.total = b.total) ∧
    (∃ b', gapbuf_insert b c = .ok b' ∧ (b'.total ≠ b.total ↔ b.gap = 0) ∧
      (b.gap = 0 → b'.total = 2 * b.total)) ∧
    (∃ b' k, gapbuf_inserts b s = .ok b' ∧ b'.total = b.total * 2 ^ k ∧
      b.total ≤ b'.total) := by
  obtain ⟨F, G, B, hrep⟩ := exists_rep hwf
  have h1 : 1 ≤ b.total := hwf.2.2.1
  have hmax : b.total ≤ SIZE_MAX := hwf.2.2.2
  refine ⟨?_, ?_, ?_, ?_, ?_, ?_, ?_⟩
  · obtain ⟨b', e, _, _, _, t, _⟩ := move_spec b amt hwf hlo hhi
    exact ⟨b', e, t⟩
  · obtain ⟨b', e, _, _, _, t, _⟩ := move_spec b 1 hwf (by decide) (by decide)
    exact ⟨b', by rw [forward_eq_move b hwf, e], t⟩
  · obtain ⟨b', e, _, _, _, t, _⟩ := move_spec b (-1) hwf (by decide) (by decide)
    exact ⟨b', by rw [backward_eq_move b hwf, e], t⟩
  · obtain ⟨b', e, t, _⟩ := delete_ok b hwf
    exact ⟨b', e, t⟩
  · obtain ⟨b', e, t, _⟩ := backspace_ok b hwf
    exact ⟨b', e, t⟩
  · obtain ⟨b', G', e, _, t, _⟩ := insert_rep c hrep h1 hmax hgrow
    refine ⟨b', e, ?_, ?_⟩
    · by_cases hg : b.gap = 0
      · rw [if_pos hg] at t
        exact ⟨fun _ => hg, fun _ => by omega⟩
      · rw [if_neg hg] at t
        exact ⟨fun hne => absurd t hne, fun h0 => absurd h0 hg⟩
    · intro hg
      rw [if_pos hg] at t
      exact t
  · obtain ⟨k, b', G', Y, _, e, _, t, _⟩ := inserts_rep s hrep h1 hmax hcap
    refine ⟨b', k, e, t, ?_⟩
    rw [t]
    exact Nat.le_mul_of_pos_right _ (Nat.pos_pow_of_pos k (by decide))

theorem capacity_only_doubles_witness :
    (∃ b', gapbuf_move ⟨[some 104, some 105], 2, 1, 0⟩ (-1) = .ok b' ∧ b'.total = 2) ∧
    (∃ b', gapbuf_forward ⟨[some 104, some 105], 2, 1, 0⟩ = .ok b' ∧ b'.total = 2) ∧
    (∃ b', gapbuf_backward ⟨[some 104, some 105], 2, 1, 0⟩ = .ok b' ∧ b'.total = 2) ∧
    (∃ b', gapbuf_delete ⟨[some 104, some 105], 2, 1, 0⟩ = .ok b' ∧ b'.total = 2) ∧
    (∃ b', gapbuf_backspace ⟨[some 104, some 105], 2, 1, 0⟩ = .ok b' ∧ b'.total = 2) ∧
    (∃ b', gapbuf_insert ⟨[some 104, some 105], 2, 1, 0⟩ 33 = .ok b' ∧
      (b'.total ≠ 2 ↔ (0 : Nat) = 0) ∧ ((0 : Nat) = 0 → b'.total = 2 * 2)) ∧
    (∃ b' k, gapbuf_inserts ⟨[some 104, some 105], 2, 1, 0⟩ [97, 98, 99] = .ok b' ∧
      b'.total = 2 * 2 ^ k ∧ 2 ≤ b'.total) :=
  capacity_only_doubles ⟨[some 104, some 105], 2, 1, 0⟩ (-1) 33 [97, 98, 99] (by decide)
    (by decide) (by decide) (by decide) (by decide)

/-- C11: on a well-formed buffer, `gapbuf_delete` and `gapbuf_forward` with `back_len = 0`,
and `gapbuf_backspace` and `gapbuf_backward` with `front = 0`, return the buffer they were
given, storage and counters unchanged. -/
theorem boundary_ops_are_noops (b : gapbuf) (hwf : WF b) :
    (back_len b = 0 → gapbuf_delete b = .ok b ∧ gapbuf_forward b = .ok b) ∧
    (b.front = 0 → gapbuf_backspace b = .ok b ∧ gapbuf_backward b = .ok b) := by
  have hfg : b.front + b.gap ≤ b.total := hwf.2.1
  refine ⟨fun h0 => ⟨?_, ?_⟩, fun h0 => ⟨?_, ?_⟩⟩
  · obtain ⟨b', e, _, hb⟩ := delete_ok b hwf
    rw [e, hb h0]
  · unfold back_len at h0
    simp (disch := omega) only [gapbuf_forward, size_sub_ok, h0, gt_iff_lt,
      lt_self_iff_false, if_false, bind, Except.bind, pure, Except.pure]
  · obtain ⟨b', e, _, hb⟩ := backspace_ok b hwf
    rw [e, hb h0]
  · simp only [gapbuf_backward, h0, gt_iff_lt, lt_self_iff_false, if_false, pure, Except.pure]

theorem boundary_ops_are_noops_witness :
    (gapbuf_delete ⟨[none], 1, 0, 1⟩ = .ok ⟨[none], 1, 0, 1⟩ ∧
      gapbuf_forward ⟨[none], 1, 0, 1⟩ = .ok ⟨[none], 1, 0, 1⟩) ∧
    (gapbuf_backspace ⟨[none], 1, 0, 1⟩ = .ok ⟨[none], 1, 0, 1⟩ ∧
      gapbuf_backward ⟨[none], 1, 0, 1⟩ = .ok ⟨[none], 1, 0, 1⟩) :=
  ⟨(boundary_ops_are_noops ⟨[none], 1, 0, 1⟩ (by decide)).1 (by decide),
    (boundary_ops_are_noops ⟨[none], 1, 0, 1⟩ (by decide)).2 rfl⟩


/-! ## Creation -/

/-- C14: for every requested capacity `c` that is a `size_t`, zero included,
`gapbuf_init` returns a buffer with `total = max c 1`, `front = 0`, `gap = total`, and
`gapbuf_write` emits nothing for it. -/
theorem init_empty (c : Nat) (hc : c ≤ SIZE_MAX) :
    ∃ b, gapbuf_init c = .ok b ∧ b.total = max c 1 ∧ b.front = 0 ∧ b.gap = b.total ∧
      gapbuf_write b = .ok [] := by
  have hs : c + (if c = 0 then 1 else 0) ≤ SIZE_MAX := by
    rw [SIZE_MAX_eq] at hc ⊢
    split <;> omega
  refine ⟨⟨malloc c, c + (if c = 0 then 1 else 0), 0, c + (if c = 0 then 1 else 0)⟩, ?_, ?_,
    rfl, rfl, ?_⟩
  · simp only [gapbuf_init, size_add_ok hs, bind, Except.bind, pure, Except.pure]
  · dsimp only
    split <;> omega
  · simp (disch := omega) only [gapbuf_write, mem_read, size_sub_ok, true_or, if_true,
      Nat.sub_zero, Nat.sub_self, List.take_zero, List.append_nil, bind, Except.bind, pure,
      Except.pure]

theorem init_empty_witness :
    ∃ b, gapbuf_init 0 = .ok b ∧ b.total = max 0 1 ∧ b.front = 0 ∧ b.gap = b.total ∧
      gapbuf_write b = .ok [] :=
  init_empty 0 (by decide)


/-- Appending units one by one to a buffer whose back segment is empty: `total` stays the
initial capacity `c` times the smallest power of two that holds the content. -/
theorem insert_each_append (c : Nat) (s : List Nat) : ∀ (b : gapbuf) (F G : List cell) (k : Nat),
    Rep b F G [] → 1 ≤ b.total → b.total ≤ SIZE_MAX → (∀ u ∈ s, u < 256) →
    2 * (F.length + s.length) ≤ SIZE_MAX → b.total = c * 2 ^ k →
    (∀ j, j < k → c * 2 ^ j < F.length) →
    ∃ b' G' k', gapbuf_insert_each b s = .ok b' ∧ Rep b' (F ++ s.map some) G' [] ∧
      b'.total = c * 2 ^ k' ∧ (∀ j, j < k' → c * 2 ^ j < F.length + s.length) := by
  induction s with
  | nil =>
    intro b F G k hr h1 hmax _ _ ht hmin
    exact ⟨b, G, k, rfl, by simpa using hr, ht, by simpa using hmin⟩
  | cons u s ih =>
    intro b F G k hr h1 hmax hu hcap ht hmin
    simp only [List.length_cons] at hcap
    have h4 := hr.2.2.2
    have h3 := hr.2.2.1
    simp only [List.length_nil, Nat.add_zero] at h4
    obtain ⟨b1, G1, e1, r1, t1, _⟩ := insert_rep (u : Int) hr h1 hmax (fun hg => by omega)
    rw [to_char_of_lt (hu u (List.mem_cons_self u s))] at r1
    have hl1 : (F ++ [some u]).length = F.length + 1 := by simp
    have hstep : ∃ k1, b1.total = c * 2 ^ k1 ∧ b.total ≤ b1.total ∧ b1.total ≤ SIZE_MAX ∧
        ∀ j, j < k1 → c * 2 ^ j < F.length + 1 := by
      by_cases hg : b.gap = 0
      · rw [if_pos hg] at t1
        refine ⟨k + 1, by rw [t1, ht, pow_succ]; ring, by omega, by omega, ?_⟩
        intro j hj
        by_cases hjk : j < k
        · have := hmin j hjk; omega
        · have hjk' : j = k := by omega
          subst hjk'
          omega
      · rw [if_neg hg] at t1
        refine ⟨k, by rw [t1, ht], by omega, by omega, ?_⟩
        intro j hj
        have := hmin j hj; omega
    obtain ⟨k1, ht1, hle, hmax1, hmin1⟩ := hstep
    obtain ⟨b', G', k', e', r', t', hmin'⟩ := ih b1 (F ++ [some u]) G1 k1 r1 (by omega) hmax1
      (fun v hv => hu v (List.mem_cons_of_mem u hv)) (by rw [hl1]; omega) ht1
      (by rw [hl1]; exact hmin1)
    refine ⟨b', G', k', ?_, by simpa using r', t', ?_⟩
    · simp only [gapbuf_insert_each, e1, bind, Except.bind]
      exact e'
    · intro j hj
      have := hmin' j hj
      rw [hl1] at this
      simp only [List.length_cons]
      omega

/-- One `gapbuf_insert` per unit after `gapbuf_init c` with `c ≥ 1`: the content is the
list of units, `front` its length, and `total` is `c` times the smallest power of two
that is at least the length. -/
theorem insert_each_after_init (c : Nat) (s : List Nat) (hc1 : 1 ≤ c) (hc : c ≤ SIZE_MAX)
    (hn : 2 * s.length ≤ SIZE_MAX) (hu : ∀ u ∈ s, u < 256) :
    ∃ b0 b k, gapbuf_init c = .ok b0 ∧ gapbuf_insert_each b0 s = .ok b ∧
      gapbuf_write b = .ok (s.map some) ∧ b.front = s.length ∧ s.length ≤ b.total ∧
      b.total = c * 2 ^ k ∧ ∀ j, j < k → c * 2 ^ j < s.length := by
  have hc0 : c ≠ 0 := by omega
  have hs : c + 0 ≤ SIZE_MAX := by omega
  have hinit : gapbuf_init c = .ok ⟨malloc c, c, 0, c⟩ := by
    simp only [gapbuf_init, if_neg hc0, size_add_ok hs, bind, Except.bind, pure, Except.pure,
      Nat.add_zero]
  have hr : Rep ⟨malloc c, c, 0, c⟩ [] (malloc c) [] := by
    refine ⟨by simp, rfl, by simp [malloc], by simp [malloc]⟩
  obtain ⟨b, G', k, e, r, t, hmin⟩ := insert_each_append c s ⟨malloc c, c, 0, c⟩ [] (malloc c) 0
    hr hc1 hc hu (by simpa using hn) (by simp) (by intro j hj; omega)
  simp only [List.nil_append, List.length_nil, Nat.zero_add] at r hmin
  refine ⟨⟨malloc c, c, 0, c⟩, b, k, hinit, e, ?_, ?_, ?_, t, hmin⟩
  · have := write_rep r
    simpa using this
  · rw [r.2.1, List.length_map]
  · have := r.2.2.2
    simp only [List.length_map, List.length_nil, Nat.add_zero] at this
    omega


theorem insert_init_zero_oob (c : Int) : gapbuf_insert ⟨[], 1, 0, 1⟩ c = .error .oob := by
  simp [gapbuf_insert, store, mem_write, bind, Except.bind, pure, Except.pure]

/-- C12: for every requested capacity `c ≥ 1` one `gapbuf_insert` per unit after
`gapbuf_init c` gives the units in order, `front = n`, `total ≥ n` and `total` equal to `c`
times the smallest power of two reaching `n` (`gapbuf_init 4` and ten units give
`total = 16`); for `c = 0` the storage has no byte while `total = 1`, and the first
`gapbuf_insert` writes outside of it. -/
theorem sequential_inserts_after_init :
    (∀ (c : Nat) (s : List Nat), 1 ≤ c → c ≤ SIZE_MAX → 2 * s.length ≤ SIZE_MAX →
      (∀ u ∈ s, u < 256) →
      ∃ b0 b k, gapbuf_init c = .ok b0 ∧ gapbuf_insert_each b0 s = .ok b ∧
        gapbuf_write b = .ok (s.map some) ∧ b.front = s.length ∧ s.length ≤ b.total ∧
        b.total = max c 1 * 2 ^ k ∧ ∀ j, j < k → max c 1 * 2 ^ j < s.length) ∧
    ((gapbuf_init 4 >>= fun b =>
        gapbuf_insert_each b [48, 49, 50, 51, 52, 53, 54, 55, 56, 57] >>= gapbuf_write) =
      .ok ([48, 49, 50, 51, 52, 53, 54, 55, 56, 57].map some)) ∧
    ((gapbuf_init 4 >>= fun b =>
        gapbuf_insert_each b [48, 49, 50, 51, 52, 53, 54, 55, 56, 57] >>= fun b' =>
          pure (b'.total, b'.front)) = .ok (16, 10)) ∧
    gapbuf_init 0 = .ok ⟨[], 1, 0, 1⟩ ∧
    (∀ (u : Nat) (s : List Nat),
      (gapbuf_init 0 >>= fun b => gapbuf_insert_each b (u :: s)) = .error .oob) := by
  refine ⟨?_, rfl, rfl, rfl, ?_⟩
  · intro c s hc1 hc hn hu
    have hm : max c 1 = c := by omega
    rw [hm]
    exact insert_each_after_init c s hc1 hc hn hu
  · intro u s
    have h0 : gapbuf_init 0 = .ok ⟨[], 1, 0, 1⟩ := rfl
    simp only [h0, gapbuf_insert_each, insert_init_zero_oob, bind, Except.bind]

/-- C15: for every requested capacity `c ≥ 1` the storage obtained by `gapbuf_init` has
`total = c` bytes; for `c = 0` it has no byte although `total = 1`, and the first
`gapbuf_insert`, which writes slot `front = 0`, is an access outside the storage. -/
theorem init_storage_capacity :
    (∀ (c : Nat) (b : gapbuf), 1 ≤ c → gapbuf_init c = .ok b →
      b.buf.length = b.total ∧ b.total = max c 1) ∧
    (∃ b, gapbuf_init 0 = .ok b ∧ b.total = max 0 1 ∧ b.front = 0 ∧ b.gap = 1 ∧
      b.buf.length = 0 ∧ ∀ c : Int, gapbuf_insert b c = .error .oob) := by
  refine ⟨?_, ⟨[], 1, 0, 1⟩, rfl, rfl, rfl, rfl, rfl, insert_init_zero_oob⟩
  intro c b hc1 h
  have hc0 : c ≠ 0 := by omega
  simp only [gapbuf_init, if_neg hc0, bind_ok_iff, size_add_ok_iff, pure, Except.pure,
    Except.ok.injEq] at h
  obtain ⟨t, ⟨_, rfl⟩, rfl⟩ := h
  simp only [malloc, List.length_replicate, Nat.add_zero, true_and]
  omega

end GapBuf
